import Mathlib

/-!
# mdns-logger: wire-format decoder

Shallow embedding of `src/mdns-logger/main.cpp`: the header decoder
`parse_dns_header`, the name decoder `parse_name`, the entry decoders
`parse_question` / `parse_resource`, and the body of the receive loop of
`main` that drives them over one received datagram.

Conventions of the embedding.

* The datagram is the list of the `len` received bytes; `len` is the length
  of that list.  A `const char*` into the buffer is its offset (a `Nat`).
* Every dereference goes through `read_u8` (or `read_bytes` for the copy of
  the rdata), which yields `Outcome.oob` when the index is not inside the
  datagram, so an unchecked read is visible.
* `*(uint16_t*)p` and `*(uint32_t*)p` load in the byte order of the host
  (`le = true` for a little-endian host); `ntohs` / `ntohl` swap on such a
  host and are the identity on a big-endian one.
* `parse_name` is a `while (true)` loop; the embedding runs it with a budget
  of iterations and yields `Outcome.nofuel` when the budget is exhausted.
  The `for` loops of `main` count with a `uint16_t` that wraps at 2^16 and
  are run with a budget in the same way.
* `encode_labels`, `encode_name`, `labels_from`, `decode_questions`,
  `decode_resources`, `question_lines`, `resource_lines`, `Entry`,
  `declared_entries`, `decode_entry`, `decode_entries` and `run_entries` are
  not code of the program: they state the wire format and the expected
  output that the decoders are compared with.
* `length_byte_reads` is the loop of `parse_name` instrumented to record the
  positions at which it reads a length byte.
-/

namespace MdnsLogger

/-- One octet of the receive buffer. -/
abbrev Byte := Fin 256

/-- Result of running a piece of the program: it returned a value, it
dereferenced an address outside the datagram, or the iteration budget of a
loop ran out before it returned. -/
inductive Outcome (α : Type) where
  | ret (a : α)
  | oob
  | nofuel
  deriving DecidableEq, Repr

/-- Sequencing of two runs. -/
def Outcome.bind {α β : Type} (x : Outcome α) (f : α → Outcome β) : Outcome β :=
  match x with
  | .ret a => f a
  | .oob => .oob
  | .nofuel => .nofuel

/-- `struct dns_header_t` (six `uint16_t`). -/
structure dns_header_t where
  id : Nat := 0
  flags : Nat := 0
  qdcount : Nat := 0
  ancount : Nat := 0
  nscount : Nat := 0
  arcount : Nat := 0
  deriving DecidableEq, Repr

/-- `struct name_label`: `ptr` is the offset of the first byte of the label
in the buffer, `len` the `uint8_t` label length. -/
structure name_label where
  ptr : Nat
  len : Nat
  deriving DecidableEq, Repr

/-- `struct question_t`. -/
structure question_t where
  labels : List name_label := []
  qtype : Nat := 0
  qclass : Nat := 0
  deriving DecidableEq, Repr

/-- `struct resource_t`. -/
structure resource_t where
  labels : List name_label := []
  rtype : Nat := 0
  rclass : Nat := 0
  ttl : Nat := 0
  rdlength : Nat := 0
  rdata : List Byte := []
  deriving DecidableEq, Repr

/-- `enum class RecordType`. -/
inductive RecordType where
  | UNKNOWN
  | AN
  | NS
  | AR
  deriving DecidableEq, Repr

/-- `template <typename T> struct ParseResult`. -/
structure ParseResult (T : Type) where
  success : Bool
  error : String
  data : T
  deriving DecidableEq, Repr

/-- `sizeof(dns_header_t)` under `#pragma pack(push, 1)`. -/
def sizeof_dns_header_t : Nat := 12

/-- `#define NAME_END 0x00`. -/
def NAME_END : Nat := 0x00

/-- `#define NAME_POINTER 0xC0`. -/
def NAME_POINTER : Nat := 0xC0

/-- `sizeof(buffer)` for `char buffer[1500]` in `main`: the most bytes
`recvfrom` stores, hence the largest `len` the decoders are called with. -/
def BUFFER_SIZE : Nat := 1500

/-- Dereference of a byte of the buffer, as an unsigned value. -/
def read_u8 (buffer : List Byte) (i : Nat) : Outcome Nat :=
  match buffer[i]? with
  | some b => .ret b.val
  | none => .oob

/-- Load `*(uint16_t*)(buffer + i)` in host byte order. -/
def load_u16 (le : Bool) (buffer : List Byte) (i : Nat) : Outcome Nat :=
  (read_u8 buffer i).bind fun b0 =>
  (read_u8 buffer (i + 1)).bind fun b1 =>
  .ret (if le then b0 + 256 * b1 else 256 * b0 + b1)

/-- Load `*(uint32_t*)(buffer + i)` in host byte order. -/
def load_u32 (le : Bool) (buffer : List Byte) (i : Nat) : Outcome Nat :=
  (read_u8 buffer i).bind fun b0 =>
  (read_u8 buffer (i + 1)).bind fun b1 =>
  (read_u8 buffer (i + 2)).bind fun b2 =>
  (read_u8 buffer (i + 3)).bind fun b3 =>
  .ret (if le then b0 + 256 * b1 + 65536 * b2 + 16777216 * b3
        else 16777216 * b0 + 65536 * b1 + 256 * b2 + b3)

/-- The libc `ntohs` on a 16-bit value. -/
def ntohs (le : Bool) (x : Nat) : Nat :=
  if le then (x % 256) * 256 + (x / 256) % 256 else x

/-- The libc `ntohl` on a 32-bit value. -/
def ntohl (le : Bool) (x : Nat) : Nat :=
  if le then
    (x % 256) * 16777216 + (x / 256 % 256) * 65536 + (x / 65536 % 256) * 256 + (x / 16777216) % 256
  else x

/-- The big-endian 16-bit value of the bytes at `i`, `i + 1` (zero for a
byte outside the datagram). -/
def be16 (buffer : List Byte) (i : Nat) : Nat :=
  256 * (buffer.getD i 0).val + (buffer.getD (i + 1) 0).val

/-- The big-endian 32-bit value of the bytes at `i .. i + 3`. -/
def be32 (buffer : List Byte) (i : Nat) : Nat :=
  16777216 * (buffer.getD i 0).val + 65536 * (buffer.getD (i + 1) 0).val
    + 256 * (buffer.getD (i + 2) 0).val + (buffer.getD (i + 3) 0).val

/-- `parse_dns_header` (main.cpp 231-243): the struct overlay
`*(dns_header_t*)buffer` loads the six fields in host order, then each
goes through `ntohs`. -/
def parse_dns_header (le : Bool) (buffer : List Byte) : Outcome (ParseResult dns_header_t) :=
  if buffer.length < sizeof_dns_header_t then
    .ret ⟨false, "Buffer too small for DNS header", {}⟩
  else
    (load_u16 le buffer 0).bind fun id =>
    (load_u16 le buffer 2).bind fun flags =>
    (load_u16 le buffer 4).bind fun qdcount =>
    (load_u16 le buffer 6).bind fun ancount =>
    (load_u16 le buffer 8).bind fun nscount =>
    (load_u16 le buffer 10).bind fun arcount =>
    .ret ⟨true, "",
      { id := ntohs le id, flags := ntohs le flags, qdcount := ntohs le qdcount,
        ancount := ntohs le ancount, nscount := ntohs le nscount,
        arcount := ntohs le arcount }⟩

/-- The variables of `parse_name` that live across iterations of its loop:
the cursor `ptr` (a reference parameter), `compressedNamePtr` (`none` is
`nullptr`) and the vector `labels`. -/
structure NameState where
  ptr : Nat
  compressedNamePtr : Option Nat
  labels : List name_label
  deriving DecidableEq, Repr

/-- How one iteration of the loop of `parse_name` ends: it falls through to
the next iteration, or the function returns (`return {false, ...}` inside
the loop, or `break` followed by `return {true, "", labels}`) with the
cursor left at `ptr`. -/
inductive NameStep where
  | next (st : NameState)
  | exit (r : ParseResult (List name_label)) (ptr : Nat)
  deriving DecidableEq, Repr

/-- One iteration of the `while (true)` loop of `parse_name`
(main.cpp 295-325). -/
def parse_name_iter (le : Bool) (buffer : List Byte) (st : NameState) : Outcome NameStep :=
  if st.ptr ≥ buffer.length then
    .ret (.exit ⟨false, "Pointer out of bounds", []⟩ st.ptr)
  else
    (read_u8 buffer st.ptr).bind fun label_len =>
    if label_len = NAME_END then
      .ret (.exit ⟨true, "", st.labels⟩
        ((match st.compressedNamePtr with
          | some c => c
          | none => st.ptr) + 1))
    else if label_len ≥ NAME_POINTER then
      if st.ptr + 1 ≥ buffer.length then
        .ret (.exit ⟨false, "Invalid pointer", []⟩ st.ptr)
      else
        (load_u16 le buffer st.ptr).bind fun raw_offset =>
        let offset := ntohs le raw_offset &&& 0x3FFF
        if offset ≥ buffer.length then
          .ret (.exit ⟨false, "Invalid offset", []⟩ st.ptr)
        else
          .ret (.next
            { ptr := offset
              compressedNamePtr :=
                (match st.compressedNamePtr with
                 | some c => some c
                 | none => some (st.ptr + 1))
              labels := st.labels })
    else
      if st.ptr + label_len + 1 > buffer.length then
        .ret (.exit ⟨false, "Invalid label len " ++ toString label_len, []⟩ st.ptr)
      else
        .ret (.next
          { ptr := st.ptr + 1 + label_len
            compressedNamePtr := st.compressedNamePtr
            labels := st.labels ++ [⟨st.ptr + 1, label_len⟩] })

/-- The loop of `parse_name` run for at most `fuel` iterations from the
state `st`; the value is the returned `ParseResult` and the final cursor. -/
def parse_name_loop (le : Bool) (buffer : List Byte) :
    Nat → NameState → Outcome (ParseResult (List name_label) × Nat)
  | 0, _ => .nofuel
  | fuel + 1, st =>
    match parse_name_iter le buffer st with
    | .ret (.next st') => parse_name_loop le buffer fuel st'
    | .ret (.exit r p) => .ret (r, p)
    | .oob => .oob
    | .nofuel => .nofuel

/-- `parse_name` (main.cpp 291-328) called with the cursor at `ptr`. -/
def parse_name (le : Bool) (fuel : Nat) (buffer : List Byte) (ptr : Nat) :
    Outcome (ParseResult (List name_label) × Nat) :=
  parse_name_loop le buffer fuel { ptr := ptr, compressedNamePtr := none, labels := [] }

/-- `parse_question` (main.cpp 245-261); the `header` argument is unused by
the source and left out. -/
def parse_question (le : Bool) (fuel : Nat) (buffer : List Byte) (ptr : Nat) :
    Outcome (ParseResult question_t × Nat) :=
  (parse_name le fuel buffer ptr).bind fun (name_result, ptr) =>
  if !name_result.success then
    .ret (⟨false, name_result.error, {}⟩, ptr)
  else if ptr + 4 > buffer.length then
    .ret (⟨false, "Buffer too small for qtype and qclass", {}⟩, ptr)
  else
    (load_u16 le buffer ptr).bind fun raw_qtype =>
    (load_u16 le buffer (ptr + 2)).bind fun raw_qclass =>
    .ret (⟨true, "",
      { labels := name_result.data, qtype := ntohs le raw_qtype,
        qclass := ntohs le raw_qclass }⟩, ptr + 2 + 2)

/-- The copy `resource.rdata.assign(ptr, ptr + rdlength)`: it reads the
`n` bytes at `i .. i + n - 1`. -/
def read_bytes (buffer : List Byte) (i : Nat) : Nat → Outcome (List Byte)
  | 0 => .ret []
  | n + 1 =>
    match buffer[i]? with
    | some b => (read_bytes buffer (i + 1) n).bind fun rest => .ret (b :: rest)
    | none => .oob

/-- `parse_resource` (main.cpp 263-289); the `header` argument is unused by
the source and left out. -/
def parse_resource (le : Bool) (fuel : Nat) (buffer : List Byte) (ptr : Nat) :
    Outcome (ParseResult resource_t × Nat) :=
  (parse_name le fuel buffer ptr).bind fun (name_result, ptr) =>
  if !name_result.success then
    .ret (⟨false, name_result.error, {}⟩, ptr)
  else if ptr + 10 > buffer.length then
    .ret (⟨false, "Buffer too small for resource fields", {}⟩, ptr)
  else
    (load_u16 le buffer ptr).bind fun raw_rtype =>
    (load_u16 le buffer (ptr + 2)).bind fun raw_rclass =>
    (load_u32 le buffer (ptr + 2 + 2)).bind fun raw_ttl =>
    (load_u16 le buffer (ptr + 2 + 2 + 4)).bind fun raw_rdlength =>
    let rdlength := ntohs le raw_rdlength
    let ptr := ptr + 2 + 2 + 4 + 2
    if ptr + rdlength > buffer.length then
      .ret (⟨false, "Invalid rdata length", {}⟩, ptr)
    else
      (read_bytes buffer ptr rdlength).bind fun rdata =>
      .ret (⟨true, "",
        { labels := name_result.data, rtype := ntohs le raw_rtype,
          rclass := ntohs le raw_rclass, ttl := ntohl le raw_ttl,
          rdlength := rdlength, rdata := rdata }⟩, ptr + rdlength)

/-- What the body of the receive loop writes to the console for one
datagram, one item per call of a print function (or per red error line). -/
inductive Event where
  | error_line (msg : String)
  | buffer_dump (bytes : List Byte)
  | header_line (header : dns_header_t) (len : Nat)
  | question_line (question : question_t) (num : Nat)
  | resource_line (resource : resource_t) (num : Nat) (type : RecordType)
  deriving DecidableEq, Repr

/-- The locals of `main` shared by its four decoding loops: the cursor
`ptr`, `parse_failed`, `error_msg`, and the console output so far. -/
structure MainState where
  ptr : Nat
  parse_failed : Bool
  error_msg : String
  out : List Event
  deriving DecidableEq, Repr

/-- The loop `for (uint16_t i = 1; i <= header.qdcount && !parse_failed; i++)`
of `main` (main.cpp 131-139), entered with counter `i`; `i++` wraps at
2^16.  `budget` bounds the number of evaluations of the loop condition and
`fuel` is the budget of each `parse_name`. -/
def question_loop (le : Bool) (fuel : Nat) (buffer : List Byte) (qdcount : Nat) :
    Nat → Nat → MainState → Outcome MainState
  | 0, _, _ => .nofuel
  | budget + 1, i, s =>
    if i ≤ qdcount && !s.parse_failed then
      (parse_question le fuel buffer s.ptr).bind fun (question_result, ptr) =>
      if !question_result.success then
        .ret { s with ptr := ptr, parse_failed := true, error_msg := question_result.error }
      else
        question_loop le fuel buffer qdcount budget ((i + 1) % 65536)
          { s with ptr := ptr, out := s.out ++ [.question_line question_result.data i] }
    else
      .ret s

/-- The loops `for (uint16_t i = 1; i <= header.<count> && !parse_failed; i++)`
over resource records (main.cpp 142-172); the three differ only in the
count and in the `RecordType` handed to `print_resource`. -/
def resource_loop (le : Bool) (fuel : Nat) (buffer : List Byte) (count : Nat)
    (type : RecordType) : Nat → Nat → MainState → Outcome MainState
  | 0, _, _ => .nofuel
  | budget + 1, i, s =>
    if i ≤ count && !s.parse_failed then
      (parse_resource le fuel buffer s.ptr).bind fun (resource_result, ptr) =>
      if !resource_result.success then
        .ret { s with ptr := ptr, parse_failed := true, error_msg := resource_result.error }
      else
        resource_loop le fuel buffer count type budget ((i + 1) % 65536)
          { s with ptr := ptr, out := s.out ++ [.resource_line resource_result.data i type] }
    else
      .ret s

/-- The body of the receive loop of `main` for one received datagram
(main.cpp 117-178): the console output it produces.  `fuel` is the budget
given to every loop. -/
def process_datagram (le : Bool) (fuel : Nat) (buffer : List Byte) : Outcome (List Event) :=
  (parse_dns_header le buffer).bind fun header_result =>
  if !header_result.success then
    .ret [.error_line header_result.error, .buffer_dump buffer]
  else
    let header := header_result.data
    let s : MainState :=
      { ptr := sizeof_dns_header_t, parse_failed := false, error_msg := "",
        out := [.header_line header buffer.length] }
    (question_loop le fuel buffer header.qdcount fuel 1 s).bind fun s =>
    (resource_loop le fuel buffer header.ancount .AN fuel 1 s).bind fun s =>
    (resource_loop le fuel buffer header.nscount .NS fuel 1 s).bind fun s =>
    (resource_loop le fuel buffer header.arcount .AR fuel 1 s).bind fun s =>
    if s.parse_failed then
      .ret (s.out ++ [.error_line s.error_msg, .buffer_dump buffer])
    else
      .ret s.out

/-- The text of a label: the `len` bytes at offset `ptr`, which is what
`std::string(label.ptr, label.len)` copies in `print_question`. -/
def label_text (buffer : List Byte) (l : name_label) : List Byte :=
  (buffer.drop l.ptr).take l.len

/-- The name string built by `print_question` / `print_resource`
(main.cpp 349-354): the label texts joined with `'.'` (byte 46). -/
def join_labels (buffer : List Byte) : List name_label → List Byte
  | [] => []
  | [l] => label_text buffer l
  | l :: l' :: ls => label_text buffer l ++ (46 : Byte) :: join_labels buffer (l' :: ls)

/-- Wire form of a run of literal labels: for each label, one byte holding
its length, then its bytes. -/
def encode_labels : List (List Byte) → List Byte
  | [] => []
  | l :: ls => (⟨l.length % 256, Nat.mod_lt _ (by decide)⟩ : Byte) :: l ++ encode_labels ls

/-- Wire form of an uncompressed name: the run of literal labels, then the
terminating zero byte. -/
def encode_name (ls : List (List Byte)) : List Byte :=
  encode_labels ls ++ [0]

/-- The `name_label` references of a run of literal labels whose wire form
starts at offset `pos`. -/
def labels_from (pos : Nat) : List (List Byte) → List name_label
  | [] => []
  | l :: ls => ⟨pos + 1, l.length⟩ :: labels_from (pos + 1 + l.length) ls


/-- The Question Decoder invoked `n` times in sequence over one shared
cursor starting at `ptr`, each call starting where the previous one ended:
the decoded questions in wire order and the final cursor, or `none` when
one of the `n` entries does not decode successfully. -/
def decode_questions (le : Bool) (fuel : Nat) (buffer : List Byte) :
    Nat → Nat → Option (List question_t × Nat)
  | 0, ptr => some ([], ptr)
  | n + 1, ptr =>
    match parse_question le fuel buffer ptr with
    | .ret (r, ptr') =>
      if r.success then
        (decode_questions le fuel buffer n ptr').map fun (qs, e) => (r.data :: qs, e)
      else none
    | _ => none

/-- The Resource Record Decoder invoked `n` times in sequence over one
shared cursor starting at `ptr`: the decoded records in wire order and the
final cursor, or `none` when one of the `n` entries does not decode
successfully. -/
def decode_resources (le : Bool) (fuel : Nat) (buffer : List Byte) :
    Nat → Nat → Option (List resource_t × Nat)
  | 0, ptr => some ([], ptr)
  | n + 1, ptr =>
    match parse_resource le fuel buffer ptr with
    | .ret (r, ptr') =>
      if r.success then
        (decode_resources le fuel buffer n ptr').map fun (rs, e) => (r.data :: rs, e)
      else none
    | _ => none

/-- Console lines of a list of questions numbered from `i`. -/
def question_lines (i : Nat) (qs : List question_t) : List Event :=
  (qs.enumFrom i).map fun (k, q) => .question_line q k

/-- Console lines of a list of resource records of one section, numbered
from `i` and tagged with the section. -/
def resource_lines (type : RecordType) (i : Nat) (rs : List resource_t) : List Event :=
  (rs.enumFrom i).map fun (k, r) => .resource_line r k type


/-- Sample datagram: the query of the spec scenario, header `id = 0x1234`,
`qdcount = 1`, then `03 www 07 example 03 com 00`, qtype 1, qclass 1. -/
def sample_query : List Byte :=
  [0x12, 0x34, 0, 0, 0, 1, 0, 0, 0, 0, 0, 0,
   3, 119, 119, 119, 7, 101, 120, 97, 109, 112, 108, 101, 3, 99, 111, 109, 0,
   0, 1, 0, 1]

/-- Sample datagram: one question `www` (at offset 12) and one answer whose
name is the label `a` followed by a pointer to offset 12, with type 5,
class 1, ttl 7 and two bytes of rdata. -/
def sample_response : List Byte :=
  [0x12, 0x34, 0x84, 0, 0, 1, 0, 1, 0, 0, 0, 0,
   3, 119, 119, 119, 0, 0, 1, 0, 1,
   1, 97, 0xC0, 12, 0, 5, 0, 1, 0, 0, 0, 7, 0, 2, 9, 8]

/-- Sample datagram: `sample_response` cut one byte short, so that the
rdata of its answer overruns the datagram. -/
def sample_truncated : List Byte :=
  sample_response.take 36


/-- Sample datagram: 14 bytes whose bytes 12 and 13 are the pointer
`0xC0 0x0C`, which points at itself. -/
def pointer_cycle : List Byte :=
  [0, 0, 0, 0, 0, 0, 0, 0, 0, 0, 0, 0, 0xC0, 0x0C]

/-- Sample datagram: a name of one label of 64 bytes (length byte `0x40`),
then the terminating zero. -/
def long_label : List Byte :=
  (64 : Byte) :: List.replicate 64 (97 : Byte) ++ [0]

/-- The loop of `parse_name` instrumented: the cursor positions at which an
iteration reads a length byte (`uint8_t label_len = *ptr`), in order, over
at most `fuel` iterations from the state `st`. -/
def length_byte_reads (le : Bool) (buffer : List Byte) : Nat → NameState → List Nat
  | 0, _ => []
  | fuel + 1, st =>
    if st.ptr ≥ buffer.length then []
    else
      st.ptr ::
        (match parse_name_iter le buffer st with
         | .ret (.next st') => length_byte_reads le buffer fuel st'
         | _ => [])


/-- One entry declared by a header: a question with its number, or a
resource record with its section and its number within the section. -/
inductive Entry where
  | question (num : Nat)
  | resource (type : RecordType) (num : Nat)
  deriving DecidableEq, Repr

/-- The entries a header declares, in wire order: `qdcount` questions, then
`ancount` answer, `nscount` authority and `arcount` additional records. -/
def declared_entries (h : dns_header_t) : List Entry :=
  (List.range' 1 h.qdcount).map .question ++
    (List.range' 1 h.ancount).map (.resource .AN) ++
    (List.range' 1 h.nscount).map (.resource .NS) ++
    (List.range' 1 h.arcount).map (.resource .AR)

/-- Decoding of one declared entry with the cursor at `ptr`, by the decoder
of its kind: success flag, error, and on success the console line of the
entry; with the cursor the decoder leaves. -/
def decode_entry (le : Bool) (fuel : Nat) (buffer : List Byte) (e : Entry) (ptr : Nat) :
    Outcome (ParseResult (List Event) × Nat) :=
  match e with
  | .question num =>
    (parse_question le fuel buffer ptr).bind fun (r, p) =>
      .ret (⟨r.success, r.error, if r.success then [.question_line r.data num] else []⟩, p)
  | .resource type num =>
    (parse_resource le fuel buffer ptr).bind fun (r, p) =>
      .ret (⟨r.success, r.error, if r.success then [.resource_line r.data num type] else []⟩, p)

/-- A list of entries decoded in sequence over one shared cursor starting at
`ptr`, each entry starting where the previous one ended: the console lines
in order and the final cursor, or `none` when one of them does not decode
successfully. -/
def decode_entries (le : Bool) (fuel : Nat) (buffer : List Byte) :
    List Entry → Nat → Option (List Event × Nat)
  | [], ptr => some ([], ptr)
  | e :: es, ptr =>
    match decode_entry le fuel buffer e ptr with
    | .ret (r, p) =>
      if r.success then
        (decode_entries le fuel buffer es p).map fun (evs, q) => (r.data ++ evs, q)
      else none
    | _ => none

/-- A list of entries decoded in sequence on the locals of `main`, stopping
at the first entry that fails: the form in which the four loops of `main`
are compared with `declared_entries`. -/
def run_entries (le : Bool) (fuel : Nat) (buffer : List Byte) :
    List Entry → MainState → Outcome MainState
  | [], s => .ret s
  | e :: es, s =>
    if s.parse_failed then .ret s
    else
      (decode_entry le fuel buffer e s.ptr).bind fun (r, p) =>
        if !r.success then
          .ret { s with ptr := p, parse_failed := true, error_msg := r.error }
        else
          run_entries le fuel buffer es { s with ptr := p, out := s.out ++ r.data }


/-! ## Basic facts about reads -/

@[simp] theorem Outcome.bind_ret {α β : Type} (a : α) (f : α → Outcome β) :
    (Outcome.ret a).bind f = f a := rfl

@[simp] theorem Outcome.bind_oob {α β : Type} (f : α → Outcome β) :
    (Outcome.oob : Outcome α).bind f = .oob := rfl

@[simp] theorem Outcome.bind_nofuel {α β : Type} (f : α → Outcome β) :
    (Outcome.nofuel : Outcome α).bind f = .nofuel := rfl

theorem read_u8_of_lt (buffer : List Byte) (i : Nat) (h : i < buffer.length) :
    read_u8 buffer i = .ret (buffer.getD i 0).val := by
  simp [read_u8, List.getD, List.getElem?_eq_getElem h]

theorem ntohs_host (le : Bool) (b0 b1 : Nat) (h0 : b0 < 256) (h1 : b1 < 256) :
    ntohs le (if le then b0 + 256 * b1 else 256 * b0 + b1) = 256 * b0 + b1 := by
  cases le
  · simp [ntohs]
  · simp [ntohs]; omega

theorem ntohl_host (le : Bool) (b0 b1 b2 b3 : Nat) (h0 : b0 < 256) (h1 : b1 < 256)
    (h2 : b2 < 256) (h3 : b3 < 256) :
    ntohl le (if le then b0 + 256 * b1 + 65536 * b2 + 16777216 * b3
        else 16777216 * b0 + 65536 * b1 + 256 * b2 + b3)
      = 16777216 * b0 + 65536 * b1 + 256 * b2 + b3 := by
  cases le
  · simp [ntohl]
  · simp [ntohl]; omega

/-- A 16-bit load inside the datagram returns, and `ntohs` of the loaded
value is the big-endian value of the two bytes, whatever the host order. -/
theorem load_u16_be (le : Bool) (buffer : List Byte) (i : Nat) (h : i + 1 < buffer.length) :
    ∃ raw, load_u16 le buffer i = .ret raw ∧ ntohs le raw = be16 buffer i := by
  refine ⟨_, ?_, ntohs_host le (buffer.getD i 0).val (buffer.getD (i + 1) 0).val
    (Fin.isLt _) (Fin.isLt _)⟩
  simp [load_u16, read_u8_of_lt buffer i (by omega), read_u8_of_lt buffer (i + 1) h]

/-- A 32-bit load inside the datagram returns, and `ntohl` of the loaded
value is the big-endian value of the four bytes, whatever the host order. -/
theorem load_u32_be (le : Bool) (buffer : List Byte) (i : Nat) (h : i + 3 < buffer.length) :
    ∃ raw, load_u32 le buffer i = .ret raw ∧ ntohl le raw = be32 buffer i := by
  refine ⟨_, ?_, ntohl_host le (buffer.getD i 0).val (buffer.getD (i + 1) 0).val
    (buffer.getD (i + 2) 0).val (buffer.getD (i + 3) 0).val
    (Fin.isLt _) (Fin.isLt _) (Fin.isLt _) (Fin.isLt _)⟩
  simp [load_u32, read_u8_of_lt buffer i (by omega), read_u8_of_lt buffer (i + 1) (by omega),
    read_u8_of_lt buffer (i + 2) (by omega), read_u8_of_lt buffer (i + 3) h]

/-! ## Header decoder -/

/-- C1. A datagram of fewer than 12 bytes (the empty one included) makes
`parse_dns_header` fail with "Buffer too small for DNS header", and the
receive loop then prints that error and the hex dump only: it returns for
every loop budget, zero included, so no name, question or resource record
is decoded. -/
theorem header_truncated (le : Bool) (buffer : List Byte) (h : buffer.length < 12) :
    parse_dns_header le buffer = .ret ⟨false, "Buffer too small for DNS header", {}⟩ ∧
    ∀ fuel, process_datagram le fuel buffer =
      .ret [.error_line "Buffer too small for DNS header", .buffer_dump buffer] := by
  have h1 : parse_dns_header le buffer = .ret ⟨false, "Buffer too small for DNS header", {}⟩ := by
    simp [parse_dns_header, sizeof_dns_header_t, h]
  exact ⟨h1, fun fuel => by simp [process_datagram, h1]⟩

theorem header_truncated_witness :
    ([] : List Byte).length < 12 ∧
    parse_dns_header true [] = .ret ⟨false, "Buffer too small for DNS header", {}⟩ ∧
    ∀ fuel, process_datagram true fuel [] =
      .ret [.error_line "Buffer too small for DNS header", .buffer_dump []] :=
  ⟨by decide, header_truncated true [] (by decide)⟩

/-- C2. On a datagram of at least 12 bytes `parse_dns_header` succeeds and
its six fields are the big-endian values of the byte pairs (0,1), (2,3),
(4,5), (6,7), (8,9), (10,11): field k is 256 * byte[2k] + byte[2k+1], on a
host of either byte order. -/
theorem header_fields (le : Bool) (buffer : List Byte) (h : 12 ≤ buffer.length) :
    parse_dns_header le buffer = .ret ⟨true, "",
      { id := 256 * buffer[0].val + buffer[1].val
        flags := 256 * buffer[2].val + buffer[3].val
        qdcount := 256 * buffer[4].val + buffer[5].val
        ancount := 256 * buffer[6].val + buffer[7].val
        nscount := 256 * buffer[8].val + buffer[9].val
        arcount := 256 * buffer[10].val + buffer[11].val }⟩ := by
  obtain ⟨r0, e0, v0⟩ := load_u16_be le buffer 0 (by omega)
  obtain ⟨r1, e1, v1⟩ := load_u16_be le buffer 2 (by omega)
  obtain ⟨r2, e2, v2⟩ := load_u16_be le buffer 4 (by omega)
  obtain ⟨r3, e3, v3⟩ := load_u16_be le buffer 6 (by omega)
  obtain ⟨r4, e4, v4⟩ := load_u16_be le buffer 8 (by omega)
  obtain ⟨r5, e5, v5⟩ := load_u16_be le buffer 10 (by omega)
  have hn : ¬ buffer.length < sizeof_dns_header_t := by simp [sizeof_dns_header_t]; omega
  simp only [parse_dns_header, hn, if_false, e0, e1, e2, e3, e4, e5, Outcome.bind_ret,
    v0, v1, v2, v3, v4, v5, be16]
  simp [List.getD, List.getElem?_eq_getElem, show 0 < buffer.length by omega,
    show 1 < buffer.length by omega, show 2 < buffer.length by omega,
    show 3 < buffer.length by omega, show 4 < buffer.length by omega,
    show 5 < buffer.length by omega, show 6 < buffer.length by omega,
    show 7 < buffer.length by omega, show 8 < buffer.length by omega,
    show 9 < buffer.length by omega, show 10 < buffer.length by omega,
    show 11 < buffer.length by omega]

theorem header_fields_witness :
    12 ≤ ([0x12, 0x34, 0x84, 0, 0, 1, 0, 2, 0, 3, 1, 4, 0xFF] : List Byte).length ∧
    parse_dns_header true [0x12, 0x34, 0x84, 0, 0, 1, 0, 2, 0, 3, 1, 4, 0xFF] = .ret ⟨true, "",
      { id := 0x1234, flags := 0x8400, qdcount := 1, ancount := 2, nscount := 3,
        arcount := 260 }⟩ :=
  ⟨by decide, header_fields true [0x12, 0x34, 0x84, 0, 0, 1, 0, 2, 0, 3, 1, 4, 0xFF] (by decide)⟩

/-! ## One iteration of the name decoder -/

theorem iter_out_of_bounds (le : Bool) (buffer : List Byte) (st : NameState)
    (h : buffer.length ≤ st.ptr) :
    parse_name_iter le buffer st = .ret (.exit ⟨false, "Pointer out of bounds", []⟩ st.ptr) := by
  simp [parse_name_iter, h]

theorem read_u8_of_some (buffer : List Byte) (i : Nat) (b : Byte)
    (h : buffer[i]? = some b) : read_u8 buffer i = .ret b.val := by
  simp [read_u8, h]

theorem lt_of_some (buffer : List Byte) (i : Nat) (b : Byte)
    (h : buffer[i]? = some b) : i < buffer.length := by
  by_contra hn
  rw [List.getElem?_eq_none (by omega)] at h
  cases h

theorem iter_end (le : Bool) (buffer : List Byte) (st : NameState) (b : Byte)
    (hb : buffer[st.ptr]? = some b) (h0 : b.val = 0) :
    parse_name_iter le buffer st = .ret (.exit ⟨true, "", st.labels⟩
      ((match st.compressedNamePtr with
        | some c => c
        | none => st.ptr) + 1)) := by
  have hlt := lt_of_some buffer st.ptr b hb
  simp [parse_name_iter, Nat.not_le.mpr hlt, read_u8_of_some buffer st.ptr b hb, h0, NAME_END]

theorem iter_label (le : Bool) (buffer : List Byte) (st : NameState) (n : Byte)
    (hb : buffer[st.ptr]? = some n) (h0 : n.val ≠ 0) (h1 : n.val < 0xC0) :
    parse_name_iter le buffer st =
      if st.ptr + n.val + 1 > buffer.length then
        .ret (.exit ⟨false, "Invalid label len " ++ toString n.val, []⟩ st.ptr)
      else
        .ret (.next
          { ptr := st.ptr + 1 + n.val
            compressedNamePtr := st.compressedNamePtr
            labels := st.labels ++ [⟨st.ptr + 1, n.val⟩] }) := by
  have hlt := lt_of_some buffer st.ptr n hb
  simp [parse_name_iter, Nat.not_le.mpr hlt, read_u8_of_some buffer st.ptr n hb, h0, NAME_END,
    NAME_POINTER, h1]

theorem iter_pointer_truncated (le : Bool) (buffer : List Byte) (st : NameState) (b0 : Byte)
    (hb : buffer[st.ptr]? = some b0) (h1 : 0xC0 ≤ b0.val) (h2 : buffer.length ≤ st.ptr + 1) :
    parse_name_iter le buffer st = .ret (.exit ⟨false, "Invalid pointer", []⟩ st.ptr) := by
  have hlt := lt_of_some buffer st.ptr b0 hb
  have h0 : b0.val ≠ 0 := by omega
  simp [parse_name_iter, Nat.not_le.mpr hlt, read_u8_of_some buffer st.ptr b0 hb, h0, NAME_END,
    NAME_POINTER, h1, h2]

theorem iter_pointer (le : Bool) (buffer : List Byte) (st : NameState) (b0 b1 : Byte)
    (hb0 : buffer[st.ptr]? = some b0) (h1 : 0xC0 ≤ b0.val)
    (hb1 : buffer[st.ptr + 1]? = some b1) :
    parse_name_iter le buffer st =
      if (256 * b0.val + b1.val) % 16384 ≥ buffer.length then
        .ret (.exit ⟨false, "Invalid offset", []⟩ st.ptr)
      else
        .ret (.next
          { ptr := (256 * b0.val + b1.val) % 16384
            compressedNamePtr :=
              (match st.compressedNamePtr with
               | some c => some c
               | none => some (st.ptr + 1))
            labels := st.labels }) := by
  have hlt := lt_of_some buffer st.ptr b0 hb0
  have hlt1 := lt_of_some buffer (st.ptr + 1) b1 hb1
  have h0 : b0.val ≠ 0 := by omega
  obtain ⟨raw, hraw, hv⟩ := load_u16_be le buffer st.ptr hlt1
  have hbe : be16 buffer st.ptr = 256 * b0.val + b1.val := by
    simp [be16, List.getD, hb0, hb1]
  have hand : ∀ x : Nat, x &&& 0x3FFF = x % 16384 := fun x =>
    Nat.and_pow_two_sub_one_eq_mod x 14
  simp only [parse_name_iter, Nat.not_le.mpr hlt, if_false, read_u8_of_some buffer st.ptr b0 hb0,
    Outcome.bind_ret, h0, NAME_END, NAME_POINTER, h1, if_true, Nat.not_le.mpr hlt1, hraw, hv, hbe,
    hand, ge_iff_le]

/-! ## The loop of the name decoder -/

theorem loop_of_next (le : Bool) (buffer : List Byte) (fuel : Nat) (st st' : NameState)
    (h : parse_name_iter le buffer st = .ret (.next st')) :
    parse_name_loop le buffer (fuel + 1) st = parse_name_loop le buffer fuel st' := by
  simp [parse_name_loop, h]

theorem loop_of_exit (le : Bool) (buffer : List Byte) (fuel : Nat) (st : NameState)
    (r : ParseResult (List name_label)) (p : Nat)
    (h : parse_name_iter le buffer st = .ret (.exit r p)) :
    parse_name_loop le buffer (fuel + 1) st = .ret (r, p) := by
  simp [parse_name_loop, h]

/-- A run that returned keeps its result under any larger budget. -/
theorem loop_mono (le : Bool) (buffer : List Byte) (fuel : Nat) :
    ∀ (st : NameState) (x : ParseResult (List name_label) × Nat),
      parse_name_loop le buffer fuel st = .ret x →
      ∀ k, parse_name_loop le buffer (fuel + k) st = .ret x := by
  induction fuel with
  | zero => intro st x h; simp [parse_name_loop] at h
  | succ n ih =>
    intro st x h k
    have hk : n + 1 + k = (n + k) + 1 := by omega
    rw [hk]
    rw [parse_name_loop] at h
    rw [parse_name_loop]
    cases hs : parse_name_iter le buffer st with
    | ret step =>
      cases step with
      | next st' =>
        rw [hs] at h
        exact ih st' x h k
      | exit r p =>
        rw [hs] at h
        exact h
    | oob => rw [hs] at h; cases h
    | nofuel => rw [hs] at h; cases h

theorem loop_mono_le (le : Bool) (buffer : List Byte) (fuel fuel' : Nat) (st : NameState)
    (x : ParseResult (List name_label) × Nat)
    (h : parse_name_loop le buffer fuel st = .ret x) (hle : fuel ≤ fuel') :
    parse_name_loop le buffer fuel' st = .ret x := by
  have := loop_mono le buffer fuel st x h (fuel' - fuel)
  rwa [Nat.add_sub_cancel' hle] at this

theorem encode_labels_length (ls : List (List Byte)) :
    (encode_labels ls).length = (ls.map fun l => l.length + 1).sum := by
  induction ls with
  | nil => rfl
  | cons l ls ih => simp [encode_labels, ih]; omega

/-- A run of literal labels is consumed in one iteration per label: the
cursor ends just after the run and the labels are appended in order. -/
theorem loop_literals (le : Bool) (ls : List (List Byte)) :
    ∀ (pre rest : List Byte) (cp : Option Nat) (acc : List name_label) (fuel : Nat),
      (∀ l ∈ ls, 1 ≤ l.length ∧ l.length < 0xC0) →
      parse_name_loop le (pre ++ encode_labels ls ++ rest) (fuel + ls.length)
          { ptr := pre.length, compressedNamePtr := cp, labels := acc } =
        parse_name_loop le (pre ++ encode_labels ls ++ rest) fuel
          { ptr := pre.length + (encode_labels ls).length, compressedNamePtr := cp,
            labels := acc ++ labels_from pre.length ls } := by
  induction ls with
  | nil => intro pre rest cp acc fuel _; simp [encode_labels, labels_from]
  | cons l ls ih =>
    intro pre rest cp acc fuel hl
    have hl0 := hl l (List.mem_cons_self _ _)
    obtain ⟨lb, henc, hlb⟩ : ∃ lb : Byte,
        encode_labels (l :: ls) = lb :: l ++ encode_labels ls ∧ lb.val = l.length :=
      ⟨_, rfl, Nat.mod_eq_of_lt (by omega)⟩
    have hbuf : pre ++ encode_labels (l :: ls) ++ rest =
        (pre ++ lb :: l) ++ encode_labels ls ++ rest := by
      simp [henc]
    have hlen : (pre ++ lb :: l).length = pre.length + 1 + l.length := by
      simp; omega
    have hget : (pre ++ encode_labels (l :: ls) ++ rest)[pre.length]? = some lb := by
      rw [henc, List.append_assoc, List.getElem?_append_right (Nat.le_refl _)]
      simp
    have hstep := iter_label le (pre ++ encode_labels (l :: ls) ++ rest)
      { ptr := pre.length, compressedNamePtr := cp, labels := acc } lb hget
      (by omega) (by omega)
    have hfit : ¬ (pre.length + lb.val + 1 > (pre ++ encode_labels (l :: ls) ++ rest).length) := by
      rw [hbuf]; simp only [List.length_append, hlen]; omega
    rw [if_neg hfit] at hstep
    simp only [hlb] at hstep
    have hf : fuel + (l :: ls).length = (fuel + ls.length) + 1 := by simp; omega
    have hih := ih (pre ++ lb :: l) rest cp (acc ++ [⟨pre.length + 1, l.length⟩]) fuel
      (fun l' h' => hl l' (List.mem_cons_of_mem _ h'))
    rw [hlen] at hih
    rw [hf, loop_of_next le _ _ _ _ hstep, hbuf, hih]
    have e1 : pre.length + 1 + l.length + (encode_labels ls).length =
        pre.length + (encode_labels (l :: ls)).length := by
      rw [henc]; simp; omega
    have e2 : acc ++ [⟨pre.length + 1, l.length⟩] ++ labels_from (pre.length + 1 + l.length) ls =
        acc ++ labels_from pre.length (l :: ls) := by
      simp [labels_from]
    rw [e1, e2]

theorem label_text_labels_from (ls : List (List Byte)) :
    ∀ (pre rest : List Byte), (∀ l ∈ ls, l.length < 256) →
      (labels_from pre.length ls).map (label_text (pre ++ encode_labels ls ++ rest)) = ls := by
  induction ls with
  | nil => intro pre rest _; rfl
  | cons l ls ih =>
    intro pre rest hl
    obtain ⟨lb, henc, -⟩ : ∃ lb : Byte,
        encode_labels (l :: ls) = lb :: l ++ encode_labels ls ∧ lb.val = l.length :=
      ⟨_, rfl, Nat.mod_eq_of_lt (hl l (List.mem_cons_self _ _))⟩
    have hbuf : pre ++ encode_labels (l :: ls) ++ rest =
        (pre ++ lb :: l) ++ encode_labels ls ++ rest := by
      simp [henc]
    have hlen : (pre ++ lb :: l).length = pre.length + 1 + l.length := by
      simp; omega
    have hih := ih (pre ++ lb :: l) rest (fun l' h' => hl l' (List.mem_cons_of_mem _ h'))
    rw [hlen] at hih
    have hhead : label_text (pre ++ encode_labels (l :: ls) ++ rest) ⟨pre.length + 1, l.length⟩
        = l := by
      have e : pre ++ encode_labels (l :: ls) ++ rest =
          (pre ++ [lb]) ++ (l ++ (encode_labels ls ++ rest)) := by simp [henc]
      have e2 : (pre ++ [lb]).length = pre.length + 1 := by simp
      rw [label_text, e]
      simp only []
      rw [← e2, List.drop_left, List.take_left]
    simp only [labels_from, List.map_cons, hhead]
    rw [hbuf, hih]

theorem join_labels_eq (buffer : List Byte) (labels : List name_label) :
    join_labels buffer labels = [(46 : Byte)].intercalate (labels.map (label_text buffer)) := by
  induction labels with
  | nil => rfl
  | cons l ls ih =>
    cases ls with
    | nil => simp [join_labels, List.intercalate]
    | cons l' ls' =>
      rw [join_labels, ih]
      simp [List.intercalate]

/-- If the loop succeeds from a state, it succeeds from the same cursor with
a resume point already recorded and labels already collected: the new
labels are appended to the collected ones and the cursor returns to the
byte after the recorded resume point. -/
theorem loop_resume (le : Bool) (buffer : List Byte) (c0 : Nat) (acc : List name_label)
    (fuel : Nat) :
    ∀ (p : Nat) (cp : Option Nat) (a : List name_label) (e : String) (M : List name_label)
      (c : Nat),
      parse_name_loop le buffer fuel { ptr := p, compressedNamePtr := cp, labels := a }
        = .ret (⟨true, e, M⟩, c) →
      parse_name_loop le buffer fuel { ptr := p, compressedNamePtr := some c0, labels := acc ++ a }
        = .ret (⟨true, e, acc ++ M⟩, c0 + 1) := by
  induction fuel with
  | zero => intro p cp a e M c h; simp [parse_name_loop] at h
  | succ n ih =>
    intro p cp a e M c h
    by_cases hp : buffer.length ≤ p
    · rw [loop_of_exit le buffer n _ _ _ (iter_out_of_bounds le buffer ⟨p, cp, a⟩ hp)] at h
      simp at h
    · obtain ⟨b, hb⟩ : ∃ b, buffer[p]? = some b :=
        ⟨buffer[p], List.getElem?_eq_getElem (by omega)⟩
      by_cases h0 : b.val = 0
      · rw [loop_of_exit le buffer n _ _ _ (iter_end le buffer ⟨p, cp, a⟩ b hb h0)] at h
        rw [loop_of_exit le buffer n _ _ _ (iter_end le buffer ⟨p, some c0, acc ++ a⟩ b hb h0)]
        cases h
        rfl
      · by_cases h1 : b.val < 0xC0
        · have s1 := iter_label le buffer ⟨p, cp, a⟩ b hb h0 h1
          have s2 := iter_label le buffer ⟨p, some c0, acc ++ a⟩ b hb h0 h1
          by_cases hfit : p + b.val + 1 > buffer.length
          · simp only [hfit, if_true] at s1
            rw [loop_of_exit le buffer n _ _ _ s1] at h
            simp at h
          · simp only [hfit, if_false] at s1 s2
            rw [loop_of_next le buffer n _ _ s1] at h
            rw [loop_of_next le buffer n _ _ s2, List.append_assoc]
            exact ih _ _ _ e M c h
        · have h1' : 0xC0 ≤ b.val := by omega
          by_cases h2 : buffer.length ≤ p + 1
          · rw [loop_of_exit le buffer n _ _ _
              (iter_pointer_truncated le buffer ⟨p, cp, a⟩ b hb h1' h2)] at h
            simp at h
          · obtain ⟨b1, hb1⟩ : ∃ b1, buffer[p + 1]? = some b1 :=
              ⟨buffer[p + 1], List.getElem?_eq_getElem (by omega)⟩
            have s1 := iter_pointer le buffer ⟨p, cp, a⟩ b b1 hb h1' hb1
            have s2 := iter_pointer le buffer ⟨p, some c0, acc ++ a⟩ b b1 hb h1' hb1
            by_cases hoff : (256 * b.val + b1.val) % 16384 ≥ buffer.length
            · simp only [hoff, if_true] at s1
              rw [loop_of_exit le buffer n _ _ _ s1] at h
              simp at h
            · simp only [hoff, if_false] at s1 s2
              rw [loop_of_next le buffer n _ _ s1] at h
              rw [loop_of_next le buffer n _ _ s2]
              exact ih _ _ _ e M c h

/-! ## Name decoder: claims -/

/-- C3. Round trip for uncompressed names.  For every list of labels, each
of 1 to 63 bytes, whose wire encoding (length byte and label bytes for each
label, then a zero byte) sits at offset `pos` inside the datagram,
`parse_name` started at `pos` returns, with any budget of at least one
iteration per label plus one, success with exactly those labels in order
(their texts are the original labels, and the dot-joined name is the
original labels joined with dots) and leaves the cursor one byte past the
terminating zero, at `pos + sum (len_i + 1) + 1`.  The result does not depend
on the budget or the host byte order, so decoding the same bytes again
gives the same result. -/
theorem name_roundtrip (le : Bool) (ls : List (List Byte)) (pre post : List Byte)
    (hl : ∀ l ∈ ls, 1 ≤ l.length ∧ l.length ≤ 63) (fuel : Nat) (hf : ls.length + 1 ≤ fuel) :
    parse_name le fuel (pre ++ encode_name ls ++ post) pre.length =
      .ret (⟨true, "", labels_from pre.length ls⟩,
        pre.length + (ls.map fun l => l.length + 1).sum + 1) ∧
    (labels_from pre.length ls).map (label_text (pre ++ encode_name ls ++ post)) = ls ∧
    join_labels (pre ++ encode_name ls ++ post) (labels_from pre.length ls) =
      [(46 : Byte)].intercalate ls ∧
    (∀ (le2 : Bool) (fuel2 : Nat), ls.length + 1 ≤ fuel2 →
      parse_name le2 fuel2 (pre ++ encode_name ls ++ post) pre.length =
        parse_name le fuel (pre ++ encode_name ls ++ post) pre.length) := by
  have hbuf : pre ++ encode_name ls ++ post = pre ++ encode_labels ls ++ (0 :: post) := by
    simp [encode_name]
  have htext : (labels_from pre.length ls).map (label_text (pre ++ encode_name ls ++ post)) = ls := by
    rw [hbuf]
    exact label_text_labels_from ls pre (0 :: post) (fun l h => by have := hl l h; omega)
  have hrun : ∀ (le2 : Bool) (fuel2 : Nat), ls.length + 1 ≤ fuel2 →
      parse_name le2 fuel2 (pre ++ encode_name ls ++ post) pre.length =
        .ret (⟨true, "", labels_from pre.length ls⟩,
          pre.length + (ls.map fun l => l.length + 1).sum + 1) := by
    intro le2 fuel2 hf2
    obtain ⟨k, rfl⟩ : ∃ k, fuel2 = (k + 1) + ls.length := ⟨fuel2 - ls.length - 1, by omega⟩
    rw [parse_name, hbuf, loop_literals le2 ls pre (0 :: post) none [] (k + 1)
      (fun l h => by have := hl l h; omega)]
    have hget : (pre ++ encode_labels ls ++ (0 :: post))[pre.length + (encode_labels ls).length]?
        = some (0 : Byte) := by
      rw [List.getElem?_append_right (by simp)]
      simp
    rw [loop_of_exit le2 _ k _ _ _ (iter_end le2 _ _ 0 hget rfl)]
    simp [encode_labels_length]
  refine ⟨hrun le fuel hf, htext, ?_, fun le2 fuel2 hf2 => ?_⟩
  · rw [join_labels_eq, htext]
  · rw [hrun le fuel hf, hrun le2 fuel2 hf2]

theorem name_roundtrip_witness :
    (∀ l ∈ ([[119, 119, 119], [101, 120, 97, 109, 112, 108, 101], [99, 111, 109]] :
        List (List Byte)), 1 ≤ l.length ∧ l.length ≤ 63) ∧
    parse_name true 4
        ([0x12, 0x34, 0, 0, 0, 1, 0, 0, 0, 0, 0, 0] ++
          encode_name [[119, 119, 119], [101, 120, 97, 109, 112, 108, 101], [99, 111, 109]] ++
          [0, 1, 0, 1]) 12 =
      .ret (⟨true, "", [⟨13, 3⟩, ⟨17, 7⟩, ⟨25, 3⟩]⟩, 29) :=
  ⟨by decide,
   (name_roundtrip true [[119, 119, 119], [101, 120, 97, 109, 112, 108, 101], [99, 111, 109]]
      [0x12, 0x34, 0, 0, 0, 1, 0, 0, 0, 0, 0, 0] [0, 1, 0, 1] (by decide) 4 (by decide)).1⟩

/-- C4. Pointer composition.  If the name at `pos` is a run of literal
labels `L` (possibly empty) followed at `q` by a 2-byte pointer, both bytes
inside the datagram, whose 14-bit offset `t` is less than the datagram
length, and `parse_name` at `t` succeeds with labels `M` (whatever the name
at `t` contains, further pointers included), then `parse_name` at `pos`
succeeds with labels `L ++ M` and leaves the cursor at `q + 2`, for every
budget that exceeds the one used at `t` by one iteration per literal label
plus one. -/
theorem pointer_composition (le : Bool) (L : List (List Byte)) (pre post : List Byte)
    (b0 b1 : Byte) (M : List name_label) (c fuel : Nat)
    (hL : ∀ l ∈ L, 1 ≤ l.length ∧ l.length < 0xC0)
    (hb0 : 0xC0 ≤ b0.val)
    (ht : (256 * b0.val + b1.val) &&& 0x3FFF <
      (pre ++ encode_labels L ++ b0 :: b1 :: post).length)
    (hM : parse_name le fuel (pre ++ encode_labels L ++ b0 :: b1 :: post)
      ((256 * b0.val + b1.val) &&& 0x3FFF) = .ret (⟨true, "", M⟩, c))
    (fuel' : Nat) (hf : fuel + L.length + 1 ≤ fuel') :
    parse_name le fuel' (pre ++ encode_labels L ++ b0 :: b1 :: post) pre.length =
      .ret (⟨true, "", labels_from pre.length L ++ M⟩,
        pre.length + (encode_labels L).length + 2) := by
  have hand : (256 * b0.val + b1.val) &&& 0x3FFF = (256 * b0.val + b1.val) % 16384 :=
    Nat.and_pow_two_sub_one_eq_mod _ 14
  rw [hand] at ht hM
  obtain ⟨k, rfl⟩ : ∃ k, fuel' = (k + 1) + L.length := ⟨fuel' - L.length - 1, by omega⟩
  have hk : fuel ≤ k := by omega
  rw [parse_name, loop_literals le L pre (b0 :: b1 :: post) none [] (k + 1) hL]
  have hget0 : (pre ++ encode_labels L ++ b0 :: b1 :: post)[pre.length + (encode_labels L).length]?
      = some b0 := by
    rw [List.getElem?_append_right (by simp)]
    simp
  have hget1 : (pre ++ encode_labels L ++ b0 :: b1 :: post)[pre.length + (encode_labels L).length + 1]?
      = some b1 := by
    rw [List.getElem?_append_right (by simp)]
    simp
  have hstep := iter_pointer le (pre ++ encode_labels L ++ b0 :: b1 :: post)
    { ptr := pre.length + (encode_labels L).length, compressedNamePtr := none,
      labels := [] ++ labels_from pre.length L } b0 b1 hget0 hb0 hget1
  rw [if_neg (by omega)] at hstep
  rw [loop_of_next le _ k _ _ hstep]
  have hM' := loop_mono_le le _ fuel k _ _ hM hk
  have := loop_resume le _ (pre.length + (encode_labels L).length + 1)
    ([] ++ labels_from pre.length L) k _ _ _ _ _ _ hM'
  simpa using this

theorem pointer_composition_witness :
    (∀ l ∈ ([[97]] : List (List Byte)), 1 ≤ l.length ∧ l.length < 0xC0) ∧
    0xC0 ≤ (0xC0 : Byte).val ∧
    (256 * (0xC0 : Byte).val + (12 : Byte).val) &&& 0x3FFF <
      ([0, 0, 0, 0, 0, 0, 0, 0, 0, 0, 0, 0, 3, 119, 119, 119, 0, 0, 1, 0, 1] ++
        encode_labels [[97]] ++ 0xC0 :: 12 :: [0, 5]).length ∧
    parse_name true 2
      ([0, 0, 0, 0, 0, 0, 0, 0, 0, 0, 0, 0, 3, 119, 119, 119, 0, 0, 1, 0, 1] ++
        encode_labels [[97]] ++ 0xC0 :: 12 :: [0, 5])
      ((256 * (0xC0 : Byte).val + (12 : Byte).val) &&& 0x3FFF) = .ret (⟨true, "", [⟨13, 3⟩]⟩, 17) ∧
    parse_name true 4
      ([0, 0, 0, 0, 0, 0, 0, 0, 0, 0, 0, 0, 3, 119, 119, 119, 0, 0, 1, 0, 1] ++
        encode_labels [[97]] ++ 0xC0 :: 12 :: [0, 5]) 21 =
      .ret (⟨true, "", [⟨22, 1⟩, ⟨13, 3⟩]⟩, 25) :=
  ⟨by decide, by decide, by decide, by decide,
   pointer_composition true [[97]]
     [0, 0, 0, 0, 0, 0, 0, 0, 0, 0, 0, 0, 3, 119, 119, 119, 0, 0, 1, 0, 1] [0, 5] 0xC0 12
     [⟨13, 3⟩] 17 2 (by decide) (by decide) (by decide) (by decide) 4 (by decide)⟩

/-- C5. When the loop of `parse_name` is at a 2-byte pointer (first byte
at least 0xC0, both bytes inside the datagram), the iteration fails with
"Invalid offset", the cursor left on the pointer, exactly when the offset
(big-endian 16-bit value & 0x3FFF) is at least the datagram length, and
`parse_name` then returns that failure; with an offset below the length the
iteration produces no error and moves the cursor to the offset. -/
theorem pointer_offset_check (le : Bool) (buffer : List Byte) (st : NameState) (b0 b1 : Byte)
    (hb0 : buffer[st.ptr]? = some b0) (hb1 : buffer[st.ptr + 1]? = some b1)
    (hm : 0xC0 ≤ b0.val) :
    parse_name_iter le buffer st =
      (if buffer.length ≤ (256 * b0.val + b1.val) &&& 0x3FFF then
        .ret (.exit ⟨false, "Invalid offset", []⟩ st.ptr)
      else
        .ret (.next
          { ptr := (256 * b0.val + b1.val) &&& 0x3FFF
            compressedNamePtr := some (st.compressedNamePtr.getD (st.ptr + 1))
            labels := st.labels })) ∧
    (buffer.length ≤ (256 * b0.val + b1.val) &&& 0x3FFF →
      ∀ fuel, parse_name_loop le buffer (fuel + 1) st =
        .ret (⟨false, "Invalid offset", []⟩, st.ptr)) := by
  have hand : (256 * b0.val + b1.val) &&& 0x3FFF = (256 * b0.val + b1.val) % 16384 :=
    Nat.and_pow_two_sub_one_eq_mod _ 14
  have hstep := iter_pointer le buffer st b0 b1 hb0 hm hb1
  rw [hand]
  have hcp : (match st.compressedNamePtr with
      | some c => some c
      | none => some (st.ptr + 1)) = some (st.compressedNamePtr.getD (st.ptr + 1)) := by
    cases st.compressedNamePtr <;> rfl
  rw [hcp] at hstep
  refine ⟨hstep, fun hge fuel => ?_⟩
  rw [if_pos hge] at hstep
  exact loop_of_exit le buffer fuel st _ _ hstep

theorem pointer_offset_check_witness :
    ([3, 97, 98, 99, 0xC0, 0x07] : List Byte)[4]? = some 0xC0 ∧
    ([3, 97, 98, 99, 0xC0, 0x07] : List Byte)[4 + 1]? = some 0x07 ∧
    0xC0 ≤ (0xC0 : Byte).val ∧
    parse_name_loop true [3, 97, 98, 99, 0xC0, 0x07] 1 ⟨4, none, [⟨1, 3⟩]⟩ =
      .ret (⟨false, "Invalid offset", []⟩, 4) :=
  ⟨by decide, by decide, by decide,
   (pointer_offset_check true [3, 97, 98, 99, 0xC0, 0x07] ⟨4, none, [⟨1, 3⟩]⟩ 0xC0 0x07
      (by decide) (by decide) (by decide)).2 (by decide) 0⟩

/-- C6. When the loop of `parse_name` reads at `p` a length byte `n` that
is neither zero nor a pointer marker, the iteration fails with "Invalid
label len n", the cursor left at `p`, exactly when `p + n + 1` exceeds the
datagram length (and `parse_name` then returns that failure); otherwise it
appends one label referencing the `n` bytes at `p + 1 .. p + n` and moves
the cursor to `p + n + 1`. -/
theorem label_length_check (le : Bool) (buffer : List Byte) (st : NameState) (n : Byte)
    (hn : buffer[st.ptr]? = some n) (h0 : n.val ≠ 0) (h1 : n.val < 0xC0) :
    parse_name_iter le buffer st =
      (if st.ptr + n.val + 1 > buffer.length then
        .ret (.exit ⟨false, "Invalid label len " ++ toString n.val, []⟩ st.ptr)
      else
        .ret (.next
          { ptr := st.ptr + n.val + 1
            compressedNamePtr := st.compressedNamePtr
            labels := st.labels ++ [⟨st.ptr + 1, n.val⟩] })) ∧
    (st.ptr + n.val + 1 > buffer.length →
      ∀ fuel, parse_name_loop le buffer (fuel + 1) st =
        .ret (⟨false, "Invalid label len " ++ toString n.val, []⟩, st.ptr)) := by
  have hstep := iter_label le buffer st n hn h0 h1
  rw [show st.ptr + 1 + n.val = st.ptr + n.val + 1 by omega] at hstep
  refine ⟨hstep, fun hgt fuel => ?_⟩
  rw [if_pos hgt] at hstep
  exact loop_of_exit le buffer fuel st _ _ hstep

theorem label_length_check_witness :
    ([0, 0, 3, 97, 98] : List Byte)[2]? = some 3 ∧ (3 : Byte).val ≠ 0 ∧ (3 : Byte).val < 0xC0 ∧
    parse_name_loop true [0, 0, 3, 97, 98] 1 ⟨2, none, []⟩ =
      .ret (⟨false, "Invalid label len 3", []⟩, 2) :=
  ⟨by decide, by decide, by decide,
   (label_length_check true [0, 0, 3, 97, 98] ⟨2, none, []⟩ 3 (by decide) (by decide)
      (by decide)).2 (by decide) 0⟩

/-! ## Question and resource record decoders -/

theorem read_bytes_eq (buffer : List Byte) (n : Nat) :
    ∀ i, i + n ≤ buffer.length → read_bytes buffer i n = .ret ((buffer.drop i).take n) := by
  induction n with
  | zero => intro i _; simp [read_bytes]
  | succ n ih =>
    intro i h
    have hi : i < buffer.length := by omega
    rw [read_bytes, List.getElem?_eq_getElem hi]
    simp only [ih (i + 1) (by omega), Outcome.bind_ret]
    rw [List.drop_eq_getElem_cons hi, List.take_succ_cons]

theorem parse_question_eq (le : Bool) (fuel : Nat) (buffer : List Byte) (pos p : Nat)
    (r : ParseResult (List name_label))
    (hname : parse_name le fuel buffer pos = .ret (r, p)) :
    parse_question le fuel buffer pos = .ret
      (if r.success = false then (⟨false, r.error, {}⟩, p)
       else if p + 4 > buffer.length then
         (⟨false, "Buffer too small for qtype and qclass", {}⟩, p)
       else
         (⟨true, "", { labels := r.data, qtype := be16 buffer p, qclass := be16 buffer (p + 2) }⟩,
          p + 4)) := by
  simp only [parse_question, hname, Outcome.bind_ret]
  by_cases hs : r.success = false
  · simp [hs]
  · by_cases h4 : p + 4 > buffer.length
    · simp [hs, h4]
    · obtain ⟨r0, e0, v0⟩ := load_u16_be le buffer p (by omega)
      obtain ⟨r1, e1, v1⟩ := load_u16_be le buffer (p + 2) (by omega)
      simp [hs, h4, e0, e1, v0, v1]

theorem parse_resource_eq (le : Bool) (fuel : Nat) (buffer : List Byte) (pos p : Nat)
    (r : ParseResult (List name_label))
    (hname : parse_name le fuel buffer pos = .ret (r, p)) :
    parse_resource le fuel buffer pos = .ret
      (if r.success = false then (⟨false, r.error, {}⟩, p)
       else if p + 10 > buffer.length then
         (⟨false, "Buffer too small for resource fields", {}⟩, p)
       else if p + 10 + be16 buffer (p + 8) > buffer.length then
         (⟨false, "Invalid rdata length", {}⟩, p + 10)
       else
         (⟨true, "",
           { labels := r.data, rtype := be16 buffer p, rclass := be16 buffer (p + 2),
             ttl := be32 buffer (p + 4), rdlength := be16 buffer (p + 8),
             rdata := (buffer.drop (p + 10)).take (be16 buffer (p + 8)) }⟩,
          p + 10 + be16 buffer (p + 8))) := by
  simp only [parse_resource, hname, Outcome.bind_ret]
  by_cases hs : r.success = false
  · simp [hs]
  · by_cases h10 : p + 10 > buffer.length
    · simp [hs, h10]
    · obtain ⟨r0, e0, v0⟩ := load_u16_be le buffer p (by omega)
      obtain ⟨r1, e1, v1⟩ := load_u16_be le buffer (p + 2) (by omega)
      obtain ⟨r2, e2, v2⟩ := load_u32_be le buffer (p + 2 + 2) (by omega)
      obtain ⟨r3, e3, v3⟩ := load_u16_be le buffer (p + 2 + 2 + 4) (by omega)
      have a1 : p + 2 + 2 = p + 4 := by omega
      have a2 : p + 2 + 2 + 4 = p + 8 := by omega
      have a3 : p + 2 + 2 + 4 + 2 = p + 10 := by omega
      rw [a1] at v2
      rw [a2] at v3
      by_cases hrd : p + 10 + be16 buffer (p + 8) > buffer.length
      · simp [hs, h10, e0, e1, e2, e3, v3, a3, hrd]
      · simp [hs, h10, e0, e1, e2, e3, v0, v1, v2, v3, a3, hrd,
          read_bytes_eq buffer (be16 buffer (p + 8)) (p + 10) (by omega)]

/-- C7. If the name of a resource record decodes, leaving the cursor at
`p`, and its 10 fixed bytes are inside the datagram, but the declared
rdlength (big-endian at `p + 8`) exceeds the bytes remaining after the
rdlength field, `parse_resource` fails with "Invalid rdata length" and the
record it returns is the empty default: no label, and type, class, ttl,
rdlength all zero, no rdata. -/
theorem rdata_overrun (le : Bool) (fuel : Nat) (buffer : List Byte) (pos p : Nat)
    (r : ParseResult (List name_label))
    (hname : parse_name le fuel buffer pos = .ret (r, p)) (hs : r.success = true)
    (h10 : p + 10 ≤ buffer.length)
    (hrd : be16 buffer (p + 8) > buffer.length - (p + 10)) :
    parse_resource le fuel buffer pos = .ret
      (⟨false, "Invalid rdata length",
        { labels := [], rtype := 0, rclass := 0, ttl := 0, rdlength := 0, rdata := [] }⟩,
       p + 10) := by
  rw [parse_resource_eq le fuel buffer pos p r hname]
  have h1 : ¬ (p + 10 > buffer.length) := by omega
  have h2 : p + 10 + be16 buffer (p + 8) > buffer.length := by omega
  simp [hs, h1, h2]

theorem rdata_overrun_witness :
    parse_name true 4 sample_truncated 21 = .ret (⟨true, "", [⟨22, 1⟩, ⟨13, 3⟩]⟩, 25) ∧
    25 + 10 ≤ sample_truncated.length ∧
    be16 sample_truncated (25 + 8) > sample_truncated.length - (25 + 10) ∧
    parse_resource true 4 sample_truncated 21 = .ret
      (⟨false, "Invalid rdata length",
        { labels := [], rtype := 0, rclass := 0, ttl := 0, rdlength := 0, rdata := [] }⟩, 35) :=
  ⟨by decide, by decide, by decide,
   rdata_overrun true 4 sample_truncated 21 25 ⟨true, "", [⟨22, 1⟩, ⟨13, 3⟩]⟩
     (by decide) rfl (by decide) (by decide)⟩

/-- C8. Question decoder.  When `parse_name` returns at cursor `p`:
if it failed, `parse_question` fails with the same error; if it succeeded
and `p + 4` exceeds the datagram length, `parse_question` fails with
"Buffer too small for qtype and qclass"; otherwise it succeeds with the
decoded labels, qtype the big-endian u16 at `p`, qclass the big-endian u16
at `p + 2`, and the cursor at `p + 4`. -/
theorem question_decoder (le : Bool) (fuel : Nat) (buffer : List Byte) (pos p : Nat)
    (r : ParseResult (List name_label))
    (hname : parse_name le fuel buffer pos = .ret (r, p)) :
    parse_question le fuel buffer pos = .ret
      (if r.success = false then (⟨false, r.error, {}⟩, p)
       else if p + 4 > buffer.length then
         (⟨false, "Buffer too small for qtype and qclass", {}⟩, p)
       else
         (⟨true, "", { labels := r.data, qtype := be16 buffer p, qclass := be16 buffer (p + 2) }⟩,
          p + 4)) :=
  parse_question_eq le fuel buffer pos p r hname

theorem question_decoder_witness :
    parse_name true 4 sample_query 12 = .ret (⟨true, "", [⟨13, 3⟩, ⟨17, 7⟩, ⟨25, 3⟩]⟩, 29) ∧
    parse_question true 4 sample_query 12 = .ret
      (⟨true, "", { labels := [⟨13, 3⟩, ⟨17, 7⟩, ⟨25, 3⟩], qtype := 1, qclass := 1 }⟩, 33) :=
  ⟨by decide,
   question_decoder true 4 sample_query 12 29 ⟨true, "", [⟨13, 3⟩, ⟨17, 7⟩, ⟨25, 3⟩]⟩
     (by decide)⟩

/-- C9. Resource record decoder.  When `parse_name` succeeds leaving the
cursor at `p`: if `p + 10` exceeds the datagram length `parse_resource`
fails with "Buffer too small for resource fields"; otherwise, with rtype,
rclass, ttl, rdlength the big-endian values at `p`, `p + 2`, `p + 4` (32
bits) and `p + 8`, it succeeds exactly when `p + 10 + rdlength` is within
the datagram, and then returns those fields, rdata equal to the rdlength
bytes at `p + 10 ..` (empty when rdlength is 0), and the cursor at
`p + 10 + rdlength`. -/
theorem resource_decoder (le : Bool) (fuel : Nat) (buffer : List Byte) (pos p : Nat)
    (r : ParseResult (List name_label))
    (hname : parse_name le fuel buffer pos = .ret (r, p)) (hs : r.success = true) :
    parse_resource le fuel buffer pos = .ret
      (if p + 10 > buffer.length then
         (⟨false, "Buffer too small for resource fields", {}⟩, p)
       else if p + 10 + be16 buffer (p + 8) ≤ buffer.length then
         (⟨true, "",
           { labels := r.data, rtype := be16 buffer p, rclass := be16 buffer (p + 2),
             ttl := be32 buffer (p + 4), rdlength := be16 buffer (p + 8),
             rdata := (buffer.drop (p + 10)).take (be16 buffer (p + 8)) }⟩,
          p + 10 + be16 buffer (p + 8))
       else (⟨false, "Invalid rdata length", {}⟩, p + 10)) ∧
    ((buffer.drop (p + 10)).take (be16 buffer (p + 8))).length =
      min (be16 buffer (p + 8)) (buffer.length - (p + 10)) := by
  refine ⟨?_, by simp⟩
  rw [parse_resource_eq le fuel buffer pos p r hname]
  by_cases h10 : p + 10 > buffer.length
  · simp [hs, h10]
  · by_cases hrd : p + 10 + be16 buffer (p + 8) ≤ buffer.length
    · simp [hs, h10, hrd, Nat.not_lt.mpr hrd]
    · simp [hs, h10, hrd, Nat.lt_of_not_le hrd]

theorem resource_decoder_witness :
    parse_name true 4 sample_response 21 = .ret (⟨true, "", [⟨22, 1⟩, ⟨13, 3⟩]⟩, 25) ∧
    parse_resource true 4 sample_response 21 = .ret
      (⟨true, "",
        { labels := [⟨22, 1⟩, ⟨13, 3⟩], rtype := 5, rclass := 1, ttl := 7, rdlength := 2,
          rdata := [9, 8] }⟩, 37) :=
  ⟨by decide,
   (resource_decoder true 4 sample_response 21 25 ⟨true, "", [⟨22, 1⟩, ⟨13, 3⟩]⟩
     (by decide) rfl).1⟩

/-! ## Cursor progress -/

/-- A successful run of the name loop ends with the cursor after the byte
`lo` and inside the datagram, provided the cursor (before any jump) or the
recorded resume point (after one) is at or after `lo`. -/
theorem loop_cursor_bounds (le : Bool) (buffer : List Byte) (lo : Nat) (fuel : Nat) :
    ∀ (p : Nat) (cp : Option Nat) (a : List name_label) (r : ParseResult (List name_label))
      (c : Nat),
      parse_name_loop le buffer fuel { ptr := p, compressedNamePtr := cp, labels := a }
        = .ret (r, c) →
      r.success = true →
      (match cp with
       | none => lo ≤ p
       | some q => lo ≤ q ∧ q < buffer.length) →
      lo + 1 ≤ c ∧ c ≤ buffer.length := by
  induction fuel with
  | zero => intro p cp a r c h; simp [parse_name_loop] at h
  | succ n ih =>
    intro p cp a r c h hs hinv
    by_cases hp : buffer.length ≤ p
    · rw [loop_of_exit le buffer n _ _ _ (iter_out_of_bounds le buffer ⟨p, cp, a⟩ hp)] at h
      cases h; cases hs
    · obtain ⟨b, hb⟩ : ∃ b, buffer[p]? = some b :=
        ⟨buffer[p], List.getElem?_eq_getElem (by omega)⟩
      by_cases h0 : b.val = 0
      · rw [loop_of_exit le buffer n _ _ _ (iter_end le buffer ⟨p, cp, a⟩ b hb h0)] at h
        cases h
        cases cp with
        | none => simp only at hinv ⊢; omega
        | some q => simp only at hinv ⊢; omega
      · by_cases h1 : b.val < 0xC0
        · have s1 := iter_label le buffer ⟨p, cp, a⟩ b hb h0 h1
          by_cases hfit : p + b.val + 1 > buffer.length
          · simp only [hfit, if_true] at s1
            rw [loop_of_exit le buffer n _ _ _ s1] at h
            cases h; cases hs
          · simp only [hfit, if_false] at s1
            rw [loop_of_next le buffer n _ _ s1] at h
            refine ih _ _ _ r c h hs ?_
            cases cp with
            | none => simp only at hinv ⊢; omega
            | some q => exact hinv
        · have h1' : 0xC0 ≤ b.val := by omega
          by_cases h2 : buffer.length ≤ p + 1
          · rw [loop_of_exit le buffer n _ _ _
              (iter_pointer_truncated le buffer ⟨p, cp, a⟩ b hb h1' h2)] at h
            cases h; cases hs
          · obtain ⟨b1, hb1⟩ : ∃ b1, buffer[p + 1]? = some b1 :=
              ⟨buffer[p + 1], List.getElem?_eq_getElem (by omega)⟩
            have s1 := iter_pointer le buffer ⟨p, cp, a⟩ b b1 hb h1' hb1
            by_cases hoff : (256 * b.val + b1.val) % 16384 ≥ buffer.length
            · simp only [hoff, if_true] at s1
              rw [loop_of_exit le buffer n _ _ _ s1] at h
              cases h; cases hs
            · simp only [hoff, if_false] at s1
              rw [loop_of_next le buffer n _ _ s1] at h
              refine ih _ _ _ r c h hs ?_
              cases cp with
              | none => simp only at hinv ⊢; omega
              | some q => exact hinv

theorem parse_name_bounds (le : Bool) (fuel : Nat) (buffer : List Byte) (pos c : Nat)
    (r : ParseResult (List name_label)) (h : parse_name le fuel buffer pos = .ret (r, c))
    (hs : r.success = true) : pos + 1 ≤ c ∧ c ≤ buffer.length :=
  loop_cursor_bounds le buffer pos fuel pos none [] r c h hs (Nat.le_refl _)

theorem parse_name_mono (le : Bool) (fuel fuel' : Nat) (buffer : List Byte) (pos : Nat)
    (x : ParseResult (List name_label) × Nat) (h : parse_name le fuel buffer pos = .ret x)
    (hle : fuel ≤ fuel') : parse_name le fuel' buffer pos = .ret x :=
  loop_mono_le le buffer fuel fuel' _ x h hle

theorem parse_question_mono (le : Bool) (fuel fuel' : Nat) (buffer : List Byte) (pos : Nat)
    (y : ParseResult question_t × Nat) (h : parse_question le fuel buffer pos = .ret y)
    (hle : fuel ≤ fuel') : parse_question le fuel' buffer pos = .ret y := by
  cases hn : parse_name le fuel buffer pos with
  | ret x =>
    obtain ⟨r, p⟩ := x
    rw [parse_question_eq le fuel buffer pos p r hn] at h
    rw [parse_question_eq le fuel' buffer pos p r (parse_name_mono le fuel fuel' buffer pos _ hn hle)]
    exact h
  | oob => simp [parse_question, hn] at h
  | nofuel => simp [parse_question, hn] at h

theorem parse_resource_mono (le : Bool) (fuel fuel' : Nat) (buffer : List Byte) (pos : Nat)
    (y : ParseResult resource_t × Nat) (h : parse_resource le fuel buffer pos = .ret y)
    (hle : fuel ≤ fuel') : parse_resource le fuel' buffer pos = .ret y := by
  cases hn : parse_name le fuel buffer pos with
  | ret x =>
    obtain ⟨r, p⟩ := x
    rw [parse_resource_eq le fuel buffer pos p r hn] at h
    rw [parse_resource_eq le fuel' buffer pos p r (parse_name_mono le fuel fuel' buffer pos _ hn hle)]
    exact h
  | oob => simp [parse_resource, hn] at h
  | nofuel => simp [parse_resource, hn] at h

theorem parse_question_bounds (le : Bool) (fuel : Nat) (buffer : List Byte) (pos c : Nat)
    (r : ParseResult question_t) (h : parse_question le fuel buffer pos = .ret (r, c))
    (hs : r.success = true) : pos + 5 ≤ c ∧ c ≤ buffer.length := by
  cases hn : parse_name le fuel buffer pos with
  | ret x =>
    obtain ⟨rn, p⟩ := x
    rw [parse_question_eq le fuel buffer pos p rn hn] at h
    by_cases hsn : rn.success = false
    · simp [hsn] at h
      obtain ⟨h1, -⟩ := h
      rw [← h1] at hs; cases hs
    · have hb := parse_name_bounds le fuel buffer pos p rn hn (by simpa using hsn)
      by_cases h4 : p + 4 > buffer.length
      · simp [hsn, h4] at h
        obtain ⟨h1, -⟩ := h
        rw [← h1] at hs; cases hs
      · simp [hsn, h4] at h
        obtain ⟨-, h2⟩ := h
        omega
  | oob => simp [parse_question, hn] at h
  | nofuel => simp [parse_question, hn] at h

theorem parse_resource_bounds (le : Bool) (fuel : Nat) (buffer : List Byte) (pos c : Nat)
    (r : ParseResult resource_t) (h : parse_resource le fuel buffer pos = .ret (r, c))
    (hs : r.success = true) : pos + 11 ≤ c ∧ c ≤ buffer.length := by
  cases hn : parse_name le fuel buffer pos with
  | ret x =>
    obtain ⟨rn, p⟩ := x
    rw [parse_resource_eq le fuel buffer pos p rn hn] at h
    by_cases hsn : rn.success = false
    · simp [hsn] at h
      obtain ⟨h1, -⟩ := h
      rw [← h1] at hs; cases hs
    · have hb := parse_name_bounds le fuel buffer pos p rn hn (by simpa using hsn)
      by_cases h10 : p + 10 > buffer.length
      · simp [hsn, h10] at h
        obtain ⟨h1, -⟩ := h
        rw [← h1] at hs; cases hs
      · by_cases hrd : p + 10 + be16 buffer (p + 8) > buffer.length
        · simp [hsn, h10, hrd] at h
          obtain ⟨h1, -⟩ := h
          rw [← h1] at hs; cases hs
        · simp [hsn, h10, hrd] at h
          obtain ⟨-, h2⟩ := h
          omega
  | oob => simp [parse_resource, hn] at h
  | nofuel => simp [parse_resource, hn] at h

/-! ## The decoding loops of `main` -/

theorem decode_questions_succ (le : Bool) (fuel : Nat) (buffer : List Byte) (n pos : Nat)
    (qs : List question_t) (e : Nat)
    (h : decode_questions le fuel buffer (n + 1) pos = some (qs, e)) :
    ∃ (r : ParseResult question_t) (p : Nat) (qs' : List question_t),
      parse_question le fuel buffer pos = .ret (r, p) ∧ r.success = true ∧
      decode_questions le fuel buffer n p = some (qs', e) ∧ qs = r.data :: qs' := by
  rw [decode_questions] at h
  cases hq : parse_question le fuel buffer pos with
  | ret x =>
    obtain ⟨r, p⟩ := x
    rw [hq] at h
    simp only at h
    by_cases hs : r.success = true
    · rw [if_pos hs] at h
      cases hd : decode_questions le fuel buffer n p with
      | none => rw [hd] at h; simp at h
      | some y =>
        obtain ⟨qs', e'⟩ := y
        rw [hd] at h
        simp at h
        exact ⟨r, p, qs', rfl, hs, by rw [← h.2]; exact hd, h.1.symm⟩
    · rw [if_neg hs] at h; cases h
  | oob => rw [hq] at h; cases h
  | nofuel => rw [hq] at h; cases h

theorem decode_resources_succ (le : Bool) (fuel : Nat) (buffer : List Byte) (n pos : Nat)
    (rs : List resource_t) (e : Nat)
    (h : decode_resources le fuel buffer (n + 1) pos = some (rs, e)) :
    ∃ (r : ParseResult resource_t) (p : Nat) (rs' : List resource_t),
      parse_resource le fuel buffer pos = .ret (r, p) ∧ r.success = true ∧
      decode_resources le fuel buffer n p = some (rs', e) ∧ rs = r.data :: rs' := by
  rw [decode_resources] at h
  cases hq : parse_resource le fuel buffer pos with
  | ret x =>
    obtain ⟨r, p⟩ := x
    rw [hq] at h
    simp only at h
    by_cases hs : r.success = true
    · rw [if_pos hs] at h
      cases hd : decode_resources le fuel buffer n p with
      | none => rw [hd] at h; simp at h
      | some y =>
        obtain ⟨rs', e'⟩ := y
        rw [hd] at h
        simp at h
        exact ⟨r, p, rs', rfl, hs, by rw [← h.2]; exact hd, h.1.symm⟩
    · rw [if_neg hs] at h; cases h
  | oob => rw [hq] at h; cases h
  | nofuel => rw [hq] at h; cases h

/-- Every successfully decoded question takes at least five bytes. -/
theorem decode_questions_bounds (le : Bool) (fuel : Nat) (buffer : List Byte) (n : Nat) :
    ∀ (pos : Nat) (qs : List question_t) (e : Nat),
      decode_questions le fuel buffer n pos = some (qs, e) →
      pos + 5 * n ≤ e ∧ (0 < n → e ≤ buffer.length) ∧ qs.length = n := by
  induction n with
  | zero =>
    intro pos qs e h
    simp [decode_questions] at h
    obtain ⟨h1, h2⟩ := h
    subst h1 h2
    simp
  | succ n ih =>
    intro pos qs e h
    obtain ⟨r, p, qs', hq, hs, hd, rfl⟩ := decode_questions_succ le fuel buffer n pos qs e h
    have hb := parse_question_bounds le fuel buffer pos p r hq hs
    obtain ⟨i1, i2, i3⟩ := ih p qs' e hd
    refine ⟨by omega, fun _ => ?_, by simp [i3]⟩
    rcases Nat.eq_zero_or_pos n with hn | hn
    · subst hn
      simp [decode_questions] at hd
      omega
    · exact i2 hn

/-- Every successfully decoded resource record takes at least eleven bytes. -/
theorem decode_resources_bounds (le : Bool) (fuel : Nat) (buffer : List Byte) (n : Nat) :
    ∀ (pos : Nat) (rs : List resource_t) (e : Nat),
      decode_resources le fuel buffer n pos = some (rs, e) →
      pos + 11 * n ≤ e ∧ (0 < n → e ≤ buffer.length) ∧ rs.length = n := by
  induction n with
  | zero =>
    intro pos rs e h
    simp [decode_resources] at h
    obtain ⟨h1, h2⟩ := h
    subst h1 h2
    simp
  | succ n ih =>
    intro pos rs e h
    obtain ⟨r, p, rs', hq, hs, hd, rfl⟩ := decode_resources_succ le fuel buffer n pos rs e h
    have hb := parse_resource_bounds le fuel buffer pos p r hq hs
    obtain ⟨i1, i2, i3⟩ := ih p rs' e hd
    refine ⟨by omega, fun _ => ?_, by simp [i3]⟩
    rcases Nat.eq_zero_or_pos n with hn | hn
    · subst hn
      simp [decode_resources] at hd
      omega
    · exact i2 hn

/-- The question loop entered with counter `i` and `n = qdcount + 1 - i`
entries left, all of which decode, prints them numbered from `i` and ends
without failure at the cursor where the last one ended. -/
theorem question_loop_complete (le : Bool) (fuel fuel' : Nat) (buffer : List Byte) (qd : Nat)
    (hle : fuel ≤ fuel') (hqd : qd < 65535) (n : Nat) :
    ∀ (i budget : Nat) (s : MainState) (qs : List question_t) (e : Nat),
      i + n = qd + 1 → n < budget → s.parse_failed = false →
      decode_questions le fuel buffer n s.ptr = some (qs, e) →
      question_loop le fuel' buffer qd budget i s =
        .ret { s with ptr := e, out := s.out ++ question_lines i qs } := by
  induction n with
  | zero =>
    intro i budget s qs e hi hb hpf hd
    obtain ⟨b, rfl⟩ : ∃ b, budget = b + 1 := ⟨budget - 1, by omega⟩
    simp [decode_questions] at hd
    obtain ⟨h1, h2⟩ := hd
    subst h1 h2
    have : ¬ i ≤ qd := by omega
    simp [question_loop, this, question_lines]
  | succ n ih =>
    intro i budget s qs e hi hb hpf hd
    obtain ⟨b, rfl⟩ : ∃ b, budget = b + 1 := ⟨budget - 1, by omega⟩
    obtain ⟨r, p, qs', hq, hs, hd', rfl⟩ := decode_questions_succ le fuel buffer n s.ptr qs e hd
    have hq' := parse_question_mono le fuel fuel' buffer s.ptr _ hq hle
    have hi' : i ≤ qd := by omega
    have hwrap : (i + 1) % 65536 = i + 1 := Nat.mod_eq_of_lt (by omega)
    rw [question_loop]
    simp only [hi', hpf, decide_True, Bool.not_false, Bool.and_self, if_true, hq',
      Outcome.bind_ret, hs, Bool.not_true, Bool.false_eq_true, if_false, hwrap]
    rw [ih (i + 1) b
      { ptr := p, parse_failed := false, error_msg := s.error_msg,
        out := s.out ++ [Event.question_line r.data i] } qs' e (by omega) (by omega) rfl hd']
    simp [question_lines, List.enumFrom_cons]

/-- The resource record loop of one section entered with counter `i` and
`n = count + 1 - i` entries left, all of which decode, prints them numbered
from `i` with the tag of the section and ends without failure at the cursor
where the last one ended. -/
theorem resource_loop_complete (le : Bool) (fuel fuel' : Nat) (buffer : List Byte) (count : Nat)
    (type : RecordType) (hle : fuel ≤ fuel') (hcount : count < 65535) (n : Nat) :
    ∀ (i budget : Nat) (s : MainState) (rs : List resource_t) (e : Nat),
      i + n = count + 1 → n < budget → s.parse_failed = false →
      decode_resources le fuel buffer n s.ptr = some (rs, e) →
      resource_loop le fuel' buffer count type budget i s =
        .ret { s with ptr := e, out := s.out ++ resource_lines type i rs } := by
  induction n with
  | zero =>
    intro i budget s rs e hi hb hpf hd
    obtain ⟨b, rfl⟩ : ∃ b, budget = b + 1 := ⟨budget - 1, by omega⟩
    simp [decode_resources] at hd
    obtain ⟨h1, h2⟩ := hd
    subst h1 h2
    have : ¬ i ≤ count := by omega
    simp [resource_loop, this, resource_lines]
  | succ n ih =>
    intro i budget s rs e hi hb hpf hd
    obtain ⟨b, rfl⟩ : ∃ b, budget = b + 1 := ⟨budget - 1, by omega⟩
    obtain ⟨r, p, rs', hq, hs, hd', rfl⟩ := decode_resources_succ le fuel buffer n s.ptr rs e hd
    have hq' := parse_resource_mono le fuel fuel' buffer s.ptr _ hq hle
    have hi' : i ≤ count := by omega
    have hwrap : (i + 1) % 65536 = i + 1 := Nat.mod_eq_of_lt (by omega)
    rw [resource_loop]
    simp only [hi', hpf, decide_True, Bool.not_false, Bool.and_self, if_true, hq',
      Outcome.bind_ret, hs, Bool.not_true, Bool.false_eq_true, if_false, hwrap]
    rw [ih (i + 1) b
      { ptr := p, parse_failed := false, error_msg := s.error_msg,
        out := s.out ++ [Event.resource_line r.data i type] } rs' e (by omega) (by omega) rfl hd']
    simp [resource_lines, List.enumFrom_cons]

/-! ## Message decoder: claims -/

/-- C10. For every datagram `main` can receive (at most the 1500 bytes of
its receive buffer) whose header decodes and in which every declared entry
decodes successfully (`qdcount` questions in sequence from offset 12, then
`ancount`, `nscount` and `arcount` resource records in sequence, each entry
starting at the cursor where the previous one ended), the body of the
receive loop prints, for every sufficient loop budget, the header line, then
exactly the `qdcount` questions in wire order, then exactly the
`ancount + nscount + arcount` resource records in wire order, the first
`ancount` tagged AN, the next `nscount` tagged NS and the last `arcount`
tagged AR, and no error line.  The four counts are arbitrary. -/
theorem message_complete (le : Bool) (fuel fuel' : Nat) (buffer : List Byte) (h : dns_header_t)
    (qs : List question_t) (ans nss ars : List resource_t) (p1 p2 p3 p4 : Nat)
    (hlen : buffer.length ≤ BUFFER_SIZE)
    (hh : parse_dns_header le buffer = .ret ⟨true, "", h⟩)
    (hq : decode_questions le fuel buffer h.qdcount 12 = some (qs, p1))
    (ha : decode_resources le fuel buffer h.ancount p1 = some (ans, p2))
    (hn : decode_resources le fuel buffer h.nscount p2 = some (nss, p3))
    (hr : decode_resources le fuel buffer h.arcount p3 = some (ars, p4))
    (hf : fuel ≤ fuel')
    (hb : h.qdcount + h.ancount + h.nscount + h.arcount < fuel') :
    process_datagram le fuel' buffer =
      .ret (.header_line h buffer.length ::
        (question_lines 1 qs ++ resource_lines .AN 1 ans ++ resource_lines .NS 1 nss
          ++ resource_lines .AR 1 ars)) ∧
    qs.length = h.qdcount ∧ ans.length = h.ancount ∧ nss.length = h.nscount ∧
    ars.length = h.arcount := by
  have hlen' : buffer.length ≤ 1500 := hlen
  obtain ⟨q1, q2, q3⟩ := decode_questions_bounds le fuel buffer h.qdcount 12 qs p1 hq
  obtain ⟨a1, a2, a3⟩ := decode_resources_bounds le fuel buffer h.ancount p1 ans p2 ha
  obtain ⟨n1, n2, n3⟩ := decode_resources_bounds le fuel buffer h.nscount p2 nss p3 hn
  obtain ⟨r1, r2, r3⟩ := decode_resources_bounds le fuel buffer h.arcount p3 ars p4 hr
  have cq : h.qdcount < 65535 := by
    rcases Nat.eq_zero_or_pos h.qdcount with h0 | h0
    · omega
    · have := q2 h0; omega
  have ca : h.ancount < 65535 := by
    rcases Nat.eq_zero_or_pos h.ancount with h0 | h0
    · omega
    · have := a2 h0; omega
  have cn : h.nscount < 65535 := by
    rcases Nat.eq_zero_or_pos h.nscount with h0 | h0
    · omega
    · have := n2 h0; omega
  have cr : h.arcount < 65535 := by
    rcases Nat.eq_zero_or_pos h.arcount with h0 | h0
    · omega
    · have := r2 h0; omega
  refine ⟨?_, q3, a3, n3, r3⟩
  have e1 := question_loop_complete le fuel fuel' buffer h.qdcount hf cq h.qdcount 1 fuel'
    { ptr := sizeof_dns_header_t, parse_failed := false, error_msg := "",
      out := [.header_line h buffer.length] } qs p1 (by omega) (by omega) rfl hq
  have e2 := resource_loop_complete le fuel fuel' buffer h.ancount .AN hf ca h.ancount 1 fuel'
    { ptr := p1, parse_failed := false, error_msg := "",
      out := [.header_line h buffer.length] ++ question_lines 1 qs } ans p2
    (by omega) (by omega) rfl ha
  have e3 := resource_loop_complete le fuel fuel' buffer h.nscount .NS hf cn h.nscount 1 fuel'
    { ptr := p2, parse_failed := false, error_msg := "",
      out := [.header_line h buffer.length] ++ question_lines 1 qs ++ resource_lines .AN 1 ans }
    nss p3 (by omega) (by omega) rfl hn
  have e4 := resource_loop_complete le fuel fuel' buffer h.arcount .AR hf cr h.arcount 1 fuel'
    { ptr := p3, parse_failed := false, error_msg := "",
      out := [.header_line h buffer.length] ++ question_lines 1 qs ++ resource_lines .AN 1 ans
        ++ resource_lines .NS 1 nss }
    ars p4 (by omega) (by omega) rfl hr
  simp only [process_datagram, hh, Outcome.bind_ret, Bool.not_true, Bool.false_eq_true, if_false,
    e1, e2, e3, e4]
  simp

theorem message_complete_witness :
    sample_response.length ≤ BUFFER_SIZE ∧
    parse_dns_header true sample_response = .ret ⟨true, "", ⟨0x1234, 0x8400, 1, 1, 0, 0⟩⟩ ∧
    decode_questions true 4 sample_response 1 12 = some ([⟨[⟨13, 3⟩], 1, 1⟩], 21) ∧
    decode_resources true 4 sample_response 1 21 =
      some ([⟨[⟨22, 1⟩, ⟨13, 3⟩], 5, 1, 7, 2, [9, 8]⟩], 37) ∧
    decode_resources true 4 sample_response 0 37 = some ([], 37) ∧
    process_datagram true 4 sample_response =
      .ret [.header_line ⟨0x1234, 0x8400, 1, 1, 0, 0⟩ 37,
            .question_line ⟨[⟨13, 3⟩], 1, 1⟩ 1,
            .resource_line ⟨[⟨22, 1⟩, ⟨13, 3⟩], 5, 1, 7, 2, [9, 8]⟩ 1 .AN] :=
  ⟨by decide, by decide, by decide, by decide, by decide,
   (message_complete true 4 4 sample_response ⟨0x1234, 0x8400, 1, 1, 0, 0⟩
      [⟨[⟨13, 3⟩], 1, 1⟩] [⟨[⟨22, 1⟩, ⟨13, 3⟩], 5, 1, 7, 2, [9, 8]⟩] [] [] 21 37 37 37
      (by decide) (by decide) (by decide) (by decide) (by decide) (by decide) (by decide)
      (by decide)).1⟩

/-! ## Name decoder: termination and failure cases -/

/-- C15. On the 14-byte datagram whose bytes 12 and 13 are `0xC0 0x0C`,
`parse_name` started at 12 never returns: every iteration reads the pointer
and jumps back to offset 12, so for every budget of iterations the run is
still going when the budget is exhausted; there is no hop or cycle limit. -/
theorem pointer_cycle_diverges (le : Bool) :
    (∀ (cp : Option Nat) (ls : List name_label),
      parse_name_iter le pointer_cycle { ptr := 12, compressedNamePtr := cp, labels := ls } =
        .ret (.next { ptr := 12, compressedNamePtr := some (cp.getD 13), labels := ls })) ∧
    ∀ fuel, parse_name le fuel pointer_cycle 12 = .nofuel := by
  have hstep : ∀ (cp : Option Nat) (ls : List name_label),
      parse_name_iter le pointer_cycle { ptr := 12, compressedNamePtr := cp, labels := ls } =
        .ret (.next { ptr := 12, compressedNamePtr := some (cp.getD 13), labels := ls }) := by
    intro cp ls
    have h := iter_pointer le pointer_cycle ⟨12, cp, ls⟩ 0xC0 0x0C rfl (by decide) rfl
    rw [if_neg (by decide)] at h
    rw [h]
    cases cp <;> rfl
  refine ⟨hstep, fun fuel => ?_⟩
  have hloop : ∀ (n : Nat) (cp : Option Nat) (ls : List name_label),
      parse_name_loop le pointer_cycle n { ptr := 12, compressedNamePtr := cp, labels := ls }
        = .nofuel := by
    intro n
    induction n with
    | zero => intro cp ls; rfl
    | succ n ih =>
      intro cp ls
      rw [loop_of_next le pointer_cycle n _ _ (hstep cp ls)]
      exact ih _ _
  exact hloop fuel none []

/-- C16. Whenever the loop of `parse_name` is about to read a length byte
with the cursor at or beyond the datagram length it fails with "Pointer out
of bounds", the cursor unchanged.  In particular a run of literal labels
that exactly fills the rest of the datagram, with no terminating zero,
fails with that error (not with an invalid-label error), and so does a
decode started at position `len`. -/
theorem cursor_out_of_bounds (le : Bool) (buffer : List Byte) :
    (∀ (st : NameState), buffer.length ≤ st.ptr →
      parse_name_iter le buffer st = .ret (.exit ⟨false, "Pointer out of bounds", []⟩ st.ptr) ∧
      ∀ fuel, parse_name_loop le buffer (fuel + 1) st =
        .ret (⟨false, "Pointer out of bounds", []⟩, st.ptr)) ∧
    (∀ (pre : List Byte) (ls : List (List Byte)), buffer = pre ++ encode_labels ls →
      (∀ l ∈ ls, 1 ≤ l.length ∧ l.length < 0xC0) →
      ∀ fuel, ls.length + 1 ≤ fuel →
        parse_name le fuel buffer pre.length =
          .ret (⟨false, "Pointer out of bounds", []⟩, buffer.length)) ∧
    (∀ fuel, parse_name le (fuel + 1) buffer buffer.length =
      .ret (⟨false, "Pointer out of bounds", []⟩, buffer.length)) := by
  have h1 : ∀ (st : NameState), buffer.length ≤ st.ptr →
      parse_name_iter le buffer st = .ret (.exit ⟨false, "Pointer out of bounds", []⟩ st.ptr) ∧
      ∀ fuel, parse_name_loop le buffer (fuel + 1) st =
        .ret (⟨false, "Pointer out of bounds", []⟩, st.ptr) := by
    intro st h
    have hi := iter_out_of_bounds le buffer st h
    exact ⟨hi, fun fuel => loop_of_exit le buffer fuel st _ _ hi⟩
  refine ⟨h1, ?_, fun fuel => (h1 ⟨buffer.length, none, []⟩ (Nat.le_refl _)).2 fuel⟩
  intro pre ls hbuf hl fuel hf
  obtain ⟨k, rfl⟩ : ∃ k, fuel = (k + 1) + ls.length := ⟨fuel - ls.length - 1, by omega⟩
  have hb : buffer = pre ++ encode_labels ls ++ [] := by simp [hbuf]
  have hlen : buffer.length = pre.length + (encode_labels ls).length := by simp [hbuf]
  rw [parse_name, hlen]
  conv => lhs; rw [hb]
  rw [loop_literals le ls pre [] none [] (k + 1) hl, ← hb]
  exact (h1 ⟨pre.length + (encode_labels ls).length, none, [] ++ labels_from pre.length ls⟩
    (by simp [hlen])).2 k

theorem cursor_out_of_bounds_witness :
    parse_name true 3 ([0, 0] ++ encode_labels [[97, 98], [99]]) 2 =
      .ret (⟨false, "Pointer out of bounds", []⟩, 7) :=
  (cursor_out_of_bounds true ([0, 0] ++ encode_labels [[97, 98], [99]])).2.1 [0, 0]
    [[97, 98], [99]] rfl (by decide) 3 (by decide)

/-- C17. If the loop of `parse_name` reads a pointer marker (a byte of at
least 0xC0) at position `len - 1`, so that the second byte of the pointer
is missing, it fails with "Invalid pointer", the cursor left on the marker:
no 16-bit load is made, no offset computed and no jump taken. -/
theorem pointer_truncated (le : Bool) (buffer : List Byte) (st : NameState) (b0 : Byte)
    (hb : buffer[st.ptr]? = some b0) (hm : 0xC0 ≤ b0.val) (hlast : st.ptr + 1 = buffer.length) :
    parse_name_iter le buffer st = .ret (.exit ⟨false, "Invalid pointer", []⟩ st.ptr) ∧
    ∀ fuel, parse_name_loop le buffer (fuel + 1) st =
      .ret (⟨false, "Invalid pointer", []⟩, st.ptr) := by
  have hi := iter_pointer_truncated le buffer st b0 hb hm (by omega)
  exact ⟨hi, fun fuel => loop_of_exit le buffer fuel st _ _ hi⟩

theorem pointer_truncated_witness :
    ([1, 97, 0xC0] : List Byte)[2]? = some 0xC0 ∧ 0xC0 ≤ (0xC0 : Byte).val ∧
    2 + 1 = ([1, 97, 0xC0] : List Byte).length ∧
    parse_name true 2 [1, 97, 0xC0] 0 = .ret (⟨false, "Invalid pointer", []⟩, 2) :=
  ⟨by decide, by decide, by decide,
   (pointer_truncated true [1, 97, 0xC0] ⟨2, none, [⟨1, 1⟩]⟩ 0xC0 (by decide) (by decide)
      (by decide)).2 0⟩

/-- C18. Cursor progress and bound.  A successful `parse_name` started at
`pos` leaves the cursor `c` with `pos + 1 ≤ c ≤ len`, also when pointers
were followed; a successful `parse_question` leaves `pos + 5 ≤ c ≤ len`; a
successful `parse_resource` leaves `pos + 11 ≤ c ≤ len`.  So between entries
the cursor never moves backwards and never passes the end of the
datagram. -/
theorem cursor_progress (le : Bool) (fuel : Nat) (buffer : List Byte) (pos : Nat) :
    (∀ (r : ParseResult (List name_label)) (c : Nat),
      parse_name le fuel buffer pos = .ret (r, c) → r.success = true →
      pos + 1 ≤ c ∧ c ≤ buffer.length) ∧
    (∀ (r : ParseResult question_t) (c : Nat),
      parse_question le fuel buffer pos = .ret (r, c) → r.success = true →
      pos + 5 ≤ c ∧ c ≤ buffer.length) ∧
    (∀ (r : ParseResult resource_t) (c : Nat),
      parse_resource le fuel buffer pos = .ret (r, c) → r.success = true →
      pos + 11 ≤ c ∧ c ≤ buffer.length) :=
  ⟨fun r c h hs => parse_name_bounds le fuel buffer pos c r h hs,
   fun r c h hs => parse_question_bounds le fuel buffer pos c r h hs,
   fun r c h hs => parse_resource_bounds le fuel buffer pos c r h hs⟩

theorem cursor_progress_witness :
    (21 + 1 ≤ 25 ∧ 25 ≤ sample_response.length) ∧
    (12 + 5 ≤ 21 ∧ 21 ≤ sample_response.length) ∧
    (21 + 11 ≤ 37 ∧ 37 ≤ sample_response.length) :=
  ⟨(cursor_progress true 4 sample_response 21).1 ⟨true, "", [⟨22, 1⟩, ⟨13, 3⟩]⟩ 25
      (by decide) rfl,
   (cursor_progress true 4 sample_response 12).2.1 ⟨true, "", ⟨[⟨13, 3⟩], 1, 1⟩⟩ 21
      (by decide) rfl,
   (cursor_progress true 4 sample_response 21).2.2
      ⟨true, "", ⟨[⟨22, 1⟩, ⟨13, 3⟩], 5, 1, 7, 2, [9, 8]⟩⟩ 37 (by decide) rfl⟩

/-! ## Reads stay inside the datagram -/

theorem Outcome.bind_ne_oob {α β : Type} (x : Outcome α) (f : α → Outcome β)
    (hx : x ≠ .oob) (hf : ∀ a, f a ≠ .oob) : x.bind f ≠ .oob := by
  cases x with
  | ret a => exact hf a
  | oob => exact absurd rfl hx
  | nofuel => intro h; cases h

/-- The header decoder always returns. -/
theorem parse_dns_header_returns (le : Bool) (buffer : List Byte) :
    ∃ r, parse_dns_header le buffer = .ret r := by
  by_cases h : buffer.length < sizeof_dns_header_t
  · exact ⟨⟨false, "Buffer too small for DNS header", {}⟩, by simp [parse_dns_header, h]⟩
  · have h12 : 12 ≤ buffer.length := by simp [sizeof_dns_header_t] at h; omega
    obtain ⟨r0, e0, -⟩ := load_u16_be le buffer 0 (by omega)
    obtain ⟨r1, e1, -⟩ := load_u16_be le buffer 2 (by omega)
    obtain ⟨r2, e2, -⟩ := load_u16_be le buffer 4 (by omega)
    obtain ⟨r3, e3, -⟩ := load_u16_be le buffer 6 (by omega)
    obtain ⟨r4, e4, -⟩ := load_u16_be le buffer 8 (by omega)
    obtain ⟨r5, e5, -⟩ := load_u16_be le buffer 10 (by omega)
    exact ⟨⟨true, "",
      { id := ntohs le r0, flags := ntohs le r1, qdcount := ntohs le r2,
        ancount := ntohs le r3, nscount := ntohs le r4, arcount := ntohs le r5 }⟩,
      by simp only [parse_dns_header, h, if_false, e0, e1, e2, e3, e4, e5, Outcome.bind_ret]⟩

/-- One iteration of the name loop always returns: each of its reads is
covered by the bounds check before it. -/
theorem iter_returns (le : Bool) (buffer : List Byte) (st : NameState) :
    ∃ step, parse_name_iter le buffer st = .ret step := by
  by_cases hp : buffer.length ≤ st.ptr
  · exact ⟨_, iter_out_of_bounds le buffer st hp⟩
  · obtain ⟨b, hb⟩ : ∃ b, buffer[st.ptr]? = some b :=
      ⟨buffer[st.ptr], List.getElem?_eq_getElem (by omega)⟩
    by_cases h0 : b.val = 0
    · exact ⟨_, iter_end le buffer st b hb h0⟩
    · by_cases h1 : b.val < 0xC0
      · have s1 := iter_label le buffer st b hb h0 h1
        by_cases hfit : st.ptr + b.val + 1 > buffer.length
        · rw [if_pos hfit] at s1; exact ⟨_, s1⟩
        · rw [if_neg hfit] at s1; exact ⟨_, s1⟩
      · have h1' : 0xC0 ≤ b.val := by omega
        by_cases h2 : buffer.length ≤ st.ptr + 1
        · exact ⟨_, iter_pointer_truncated le buffer st b hb h1' h2⟩
        · obtain ⟨b1, hb1⟩ : ∃ b1, buffer[st.ptr + 1]? = some b1 :=
            ⟨buffer[st.ptr + 1], List.getElem?_eq_getElem (by omega)⟩
          have s1 := iter_pointer le buffer st b b1 hb h1' hb1
          by_cases hoff : (256 * b.val + b1.val) % 16384 ≥ buffer.length
          · rw [if_pos hoff] at s1; exact ⟨_, s1⟩
          · rw [if_neg hoff] at s1; exact ⟨_, s1⟩

theorem loop_ne_oob (le : Bool) (buffer : List Byte) (fuel : Nat) :
    ∀ st, parse_name_loop le buffer fuel st ≠ .oob := by
  induction fuel with
  | zero => intro st h; simp [parse_name_loop] at h
  | succ n ih =>
    intro st
    obtain ⟨step, hs⟩ := iter_returns le buffer st
    cases step with
    | next st' => rw [loop_of_next le buffer n st st' hs]; exact ih st'
    | exit r p => rw [loop_of_exit le buffer n st r p hs]; intro h; cases h

theorem parse_name_ne_oob (le : Bool) (fuel : Nat) (buffer : List Byte) (pos : Nat) :
    parse_name le fuel buffer pos ≠ .oob :=
  loop_ne_oob le buffer fuel _

theorem parse_question_ne_oob (le : Bool) (fuel : Nat) (buffer : List Byte) (pos : Nat) :
    parse_question le fuel buffer pos ≠ .oob := by
  cases hn : parse_name le fuel buffer pos with
  | ret x =>
    obtain ⟨r, p⟩ := x
    rw [parse_question_eq le fuel buffer pos p r hn]
    intro h; cases h
  | oob => exact absurd hn (parse_name_ne_oob le fuel buffer pos)
  | nofuel => simp [parse_question, hn]

theorem parse_resource_ne_oob (le : Bool) (fuel : Nat) (buffer : List Byte) (pos : Nat) :
    parse_resource le fuel buffer pos ≠ .oob := by
  cases hn : parse_name le fuel buffer pos with
  | ret x =>
    obtain ⟨r, p⟩ := x
    rw [parse_resource_eq le fuel buffer pos p r hn]
    intro h; cases h
  | oob => exact absurd hn (parse_name_ne_oob le fuel buffer pos)
  | nofuel => simp [parse_resource, hn]

theorem question_loop_ne_oob (le : Bool) (fuel : Nat) (buffer : List Byte) (qd : Nat)
    (budget : Nat) : ∀ (i : Nat) (s : MainState),
      question_loop le fuel buffer qd budget i s ≠ .oob := by
  induction budget with
  | zero => intro i s h; simp [question_loop] at h
  | succ b ih =>
    intro i s
    rw [question_loop]
    split
    · refine Outcome.bind_ne_oob _ _ (parse_question_ne_oob le fuel buffer s.ptr) ?_
      rintro ⟨r, p⟩
      simp only
      split
      · intro h; cases h
      · exact ih _ _
    · intro h; cases h

theorem resource_loop_ne_oob (le : Bool) (fuel : Nat) (buffer : List Byte) (count : Nat)
    (type : RecordType) (budget : Nat) : ∀ (i : Nat) (s : MainState),
      resource_loop le fuel buffer count type budget i s ≠ .oob := by
  induction budget with
  | zero => intro i s h; simp [resource_loop] at h
  | succ b ih =>
    intro i s
    rw [resource_loop]
    split
    · refine Outcome.bind_ne_oob _ _ (parse_resource_ne_oob le fuel buffer s.ptr) ?_
      rintro ⟨r, p⟩
      simp only
      split
      · intro h; cases h
      · exact ih _ _
    · intro h; cases h

/-- C14. Every byte read made by `parse_dns_header`, `parse_name`,
`parse_question` and `parse_resource`, from any cursor position and so also
as driven by the receive loop from cursor 12, is at an index inside the
datagram: none of these runs, for any datagram and any budget, ends in the
out-of-bounds outcome that a read at an index `≥ len` produces. -/
theorem reads_in_bounds (le : Bool) (fuel : Nat) (buffer : List Byte) :
    parse_dns_header le buffer ≠ .oob ∧
    (∀ pos, parse_name le fuel buffer pos ≠ .oob) ∧
    (∀ pos, parse_question le fuel buffer pos ≠ .oob) ∧
    (∀ pos, parse_resource le fuel buffer pos ≠ .oob) ∧
    process_datagram le fuel buffer ≠ .oob := by
  obtain ⟨hr, hh⟩ := parse_dns_header_returns le buffer
  refine ⟨(by rw [hh]; intro h; cases h), parse_name_ne_oob le fuel buffer,
    parse_question_ne_oob le fuel buffer, parse_resource_ne_oob le fuel buffer, ?_⟩
  simp only [process_datagram, hh, Outcome.bind_ret]
  split
  · intro h; cases h
  · refine Outcome.bind_ne_oob _ _ (question_loop_ne_oob le fuel buffer _ fuel 1 _) fun s1 => ?_
    refine Outcome.bind_ne_oob _ _ (resource_loop_ne_oob le fuel buffer _ _ fuel 1 _) fun s2 => ?_
    refine Outcome.bind_ne_oob _ _ (resource_loop_ne_oob le fuel buffer _ _ fuel 1 _) fun s3 => ?_
    refine Outcome.bind_ne_oob _ _ (resource_loop_ne_oob le fuel buffer _ _ fuel 1 _) fun s4 => ?_
    split <;> (intro h; cases h)

/-! ## Labels returned by the name decoder -/

/-- A property that holds of every label pushed by the label branch holds
of every label of a successful run. -/
theorem loop_labels_inv (le : Bool) (buffer : List Byte) (P : name_label → Prop)
    (hP : ∀ (p : Nat) (n : Byte), buffer[p]? = some n → n.val ≠ 0 → n.val < 0xC0 →
      p + n.val + 1 ≤ buffer.length → P ⟨p + 1, n.val⟩)
    (fuel : Nat) :
    ∀ (p : Nat) (cp : Option Nat) (a : List name_label) (r : ParseResult (List name_label))
      (c : Nat),
      parse_name_loop le buffer fuel { ptr := p, compressedNamePtr := cp, labels := a }
        = .ret (r, c) →
      r.success = true → (∀ l ∈ a, P l) → ∀ l ∈ r.data, P l := by
  induction fuel with
  | zero => intro p cp a r c h; simp [parse_name_loop] at h
  | succ n ih =>
    intro p cp a r c h hs ha
    by_cases hp : buffer.length ≤ p
    · rw [loop_of_exit le buffer n _ _ _ (iter_out_of_bounds le buffer ⟨p, cp, a⟩ hp)] at h
      cases h; cases hs
    · obtain ⟨b, hb⟩ : ∃ b, buffer[p]? = some b :=
        ⟨buffer[p], List.getElem?_eq_getElem (by omega)⟩
      by_cases h0 : b.val = 0
      · rw [loop_of_exit le buffer n _ _ _ (iter_end le buffer ⟨p, cp, a⟩ b hb h0)] at h
        cases h
        exact ha
      · by_cases h1 : b.val < 0xC0
        · have s1 := iter_label le buffer ⟨p, cp, a⟩ b hb h0 h1
          by_cases hfit : p + b.val + 1 > buffer.length
          · simp only [hfit, if_true] at s1
            rw [loop_of_exit le buffer n _ _ _ s1] at h
            cases h; cases hs
          · simp only [hfit, if_false] at s1
            rw [loop_of_next le buffer n _ _ s1] at h
            refine ih _ _ _ r c h hs ?_
            intro l hl
            rcases List.mem_append.mp hl with hl | hl
            · exact ha l hl
            · rw [List.mem_singleton] at hl
              subst hl
              exact hP p b hb h0 h1 (by omega)
        · have h1' : 0xC0 ≤ b.val := by omega
          by_cases h2 : buffer.length ≤ p + 1
          · rw [loop_of_exit le buffer n _ _ _
              (iter_pointer_truncated le buffer ⟨p, cp, a⟩ b hb h1' h2)] at h
            cases h; cases hs
          · obtain ⟨b1, hb1⟩ : ∃ b1, buffer[p + 1]? = some b1 :=
              ⟨buffer[p + 1], List.getElem?_eq_getElem (by omega)⟩
            have s1 := iter_pointer le buffer ⟨p, cp, a⟩ b b1 hb h1' hb1
            by_cases hoff : (256 * b.val + b1.val) % 16384 ≥ buffer.length
            · simp only [hoff, if_true] at s1
              rw [loop_of_exit le buffer n _ _ _ s1] at h
              cases h; cases hs
            · simp only [hoff, if_false] at s1
              rw [loop_of_next le buffer n _ _ s1] at h
              exact ih _ _ _ r c h hs ha

/-- C13, as stated, fails: on the name `0x40`, 64 bytes, `0x00` the decoder
succeeds and returns a label of length 64, which is more than 63. -/
theorem label_length_63_counterexample :
    parse_name true 2 long_label 0 = .ret (⟨true, "", [⟨1, 64⟩]⟩, 66) ∧
    ¬ (∀ l ∈ ([⟨1, 64⟩] : List name_label), l.len ≤ 63) := by
  constructor
  · decide
  · decide

/-- C13, amended. Every label returned by a successful `parse_name` has a
length of at least 1 and at most 191 (0xBF): a length byte is treated as a
label length exactly when it is neither zero nor a pointer marker, that
is when it is in 1..191; an iteration that reads a zero or a byte of at
least 0xC0 appends no label. -/
theorem label_length_bound (le : Bool) (fuel : Nat) (buffer : List Byte) (pos : Nat) :
    (∀ (r : ParseResult (List name_label)) (c : Nat),
      parse_name le fuel buffer pos = .ret (r, c) → r.success = true →
      ∀ l ∈ r.data, 1 ≤ l.len ∧ l.len ≤ 191) ∧
    (∀ (st st' : NameState) (n : Byte), buffer[st.ptr]? = some n →
      parse_name_iter le buffer st = .ret (.next st') →
      (st'.labels = st.labels ++ [⟨st.ptr + 1, n.val⟩] ↔ (1 ≤ n.val ∧ n.val ≤ 191)) ∧
      (st'.labels = st.labels ↔ 0xC0 ≤ n.val)) := by
  constructor
  · intro r c h hs
    exact loop_labels_inv le buffer (fun l => 1 ≤ l.len ∧ l.len ≤ 191)
      (fun p n _ h0 h1 _ => ⟨by simp only; omega, by simp only; omega⟩)
      fuel pos none [] r c h hs (fun l hl => by cases hl)
  · intro st st' n hb hstep
    by_cases h0 : n.val = 0
    · rw [iter_end le buffer st n hb h0] at hstep
      cases hstep
    · by_cases h1 : n.val < 0xC0
      · have s1 := iter_label le buffer st n hb h0 h1
        by_cases hfit : st.ptr + n.val + 1 > buffer.length
        · rw [if_pos hfit, hstep] at s1
          cases s1
        · rw [if_neg hfit, hstep] at s1
          cases s1
          simp
          omega
      · have h1' : 0xC0 ≤ n.val := by omega
        by_cases h2 : buffer.length ≤ st.ptr + 1
        · rw [iter_pointer_truncated le buffer st n hb h1' h2] at hstep
          cases hstep
        · obtain ⟨b1, hb1⟩ : ∃ b1, buffer[st.ptr + 1]? = some b1 :=
            ⟨buffer[st.ptr + 1], List.getElem?_eq_getElem (by omega)⟩
          have s1 := iter_pointer le buffer st n b1 hb h1' hb1
          by_cases hoff : (256 * n.val + b1.val) % 16384 ≥ buffer.length
          · rw [if_pos hoff, hstep] at s1
            cases s1
          · rw [if_neg hoff, hstep] at s1
            cases s1
            simp
            omega

theorem label_length_bound_witness :
    ∀ l ∈ ([⟨1, 64⟩] : List name_label), 1 ≤ l.len ∧ l.len ≤ 191 :=
  (label_length_bound true 2 long_label 0).1 ⟨true, "", [⟨1, 64⟩]⟩ 66 (by decide) rfl

/-- C19. Label well-formedness.  Every label (offset, length) returned by a
successful `parse_name` is non-empty and lies inside the datagram: its
length is at least 1, its offset at least 1, offset + length at most `len`,
and the byte just before it (at offset - 1) is its length byte.  No empty
label is stored, not even for the terminating zero. -/
theorem labels_well_formed (le : Bool) (fuel : Nat) (buffer : List Byte) (pos c : Nat)
    (r : ParseResult (List name_label))
    (h : parse_name le fuel buffer pos = .ret (r, c)) (hs : r.success = true) :
    ∀ l ∈ r.data, 1 ≤ l.len ∧ 1 ≤ l.ptr ∧ l.ptr + l.len ≤ buffer.length ∧
      (buffer[l.ptr - 1]?).map Fin.val = some l.len :=
  loop_labels_inv le buffer
    (fun l => 1 ≤ l.len ∧ 1 ≤ l.ptr ∧ l.ptr + l.len ≤ buffer.length ∧
      (buffer[l.ptr - 1]?).map Fin.val = some l.len)
    (fun p n hb h0 _ hfit =>
      ⟨by simp only; omega, by simp only; omega, by simp only; omega, by simp [hb]⟩)
    fuel pos none [] r c h hs (fun l hl => by cases hl)

theorem labels_well_formed_witness :
    parse_name true 4 sample_response 21 = .ret (⟨true, "", [⟨22, 1⟩, ⟨13, 3⟩]⟩, 25) ∧
    ∀ l ∈ ([⟨22, 1⟩, ⟨13, 3⟩] : List name_label),
      1 ≤ l.len ∧ 1 ≤ l.ptr ∧ l.ptr + l.len ≤ sample_response.length ∧
      (sample_response[l.ptr - 1]?).map Fin.val = some l.len :=
  ⟨by decide,
   labels_well_formed true 4 sample_response 21 25 ⟨true, "", [⟨22, 1⟩, ⟨13, 3⟩]⟩
     (by decide) rfl⟩

/-! ## Termination without pointers -/

theorem reads_zero (le : Bool) (buffer : List Byte) (st : NameState) :
    length_byte_reads le buffer 0 st = [] := rfl

theorem reads_of_out_of_bounds (le : Bool) (buffer : List Byte) (fuel : Nat) (st : NameState)
    (h : buffer.length ≤ st.ptr) : length_byte_reads le buffer fuel st = [] := by
  cases fuel with
  | zero => rfl
  | succ n => simp [length_byte_reads, h]

theorem reads_of_exit (le : Bool) (buffer : List Byte) (fuel : Nat) (st : NameState)
    (r : ParseResult (List name_label)) (p : Nat) (hlt : st.ptr < buffer.length)
    (h : parse_name_iter le buffer st = .ret (.exit r p)) :
    length_byte_reads le buffer (fuel + 1) st = [st.ptr] := by
  simp [length_byte_reads, Nat.not_le.mpr hlt, h]

theorem reads_of_next (le : Bool) (buffer : List Byte) (fuel : Nat) (st st' : NameState)
    (hlt : st.ptr < buffer.length) (h : parse_name_iter le buffer st = .ret (.next st')) :
    length_byte_reads le buffer (fuel + 1) st = st.ptr :: length_byte_reads le buffer fuel st' := by
  simp [length_byte_reads, Nat.not_le.mpr hlt, h]

/-- While no pointer marker is read as a length byte, every iteration that
reads a length byte moves the cursor forward, so the positions read are
increasing, there are at most `len - ptr` of them, and a budget of
`len - ptr + 1` iterations is enough for the loop to return. -/
theorem reads_pointer_free (le : Bool) (buffer : List Byte) (fuel : Nat) :
    ∀ (st : NameState),
      (∀ i ∈ length_byte_reads le buffer fuel st, ∀ b, buffer[i]? = some b → b.val < 0xC0) →
      (∀ i ∈ length_byte_reads le buffer fuel st, st.ptr ≤ i ∧ i < buffer.length) ∧
      List.Chain' (· < ·) (length_byte_reads le buffer fuel st) ∧
      (length_byte_reads le buffer fuel st).length ≤ buffer.length - st.ptr ∧
      (buffer.length - st.ptr < fuel → ∃ r c, parse_name_loop le buffer fuel st = .ret (r, c)) := by
  induction fuel with
  | zero =>
    intro st _
    simp [reads_zero]
  | succ n ih =>
    intro st hfree
    by_cases hp : buffer.length ≤ st.ptr
    · rw [reads_of_out_of_bounds le buffer (n + 1) st hp]
      exact ⟨by simp, by simp, by simp, fun _ =>
        ⟨_, _, loop_of_exit le buffer n st _ _ (iter_out_of_bounds le buffer st hp)⟩⟩
    · have hlt : st.ptr < buffer.length := by omega
      obtain ⟨b, hb⟩ : ∃ b, buffer[st.ptr]? = some b :=
        ⟨buffer[st.ptr], List.getElem?_eq_getElem hlt⟩
      have hexit : ∀ (r : ParseResult (List name_label)) (p : Nat),
          parse_name_iter le buffer st = .ret (.exit r p) →
          (∀ i ∈ length_byte_reads le buffer (n + 1) st, st.ptr ≤ i ∧ i < buffer.length) ∧
          List.Chain' (· < ·) (length_byte_reads le buffer (n + 1) st) ∧
          (length_byte_reads le buffer (n + 1) st).length ≤ buffer.length - st.ptr ∧
          (buffer.length - st.ptr < n + 1 →
            ∃ r c, parse_name_loop le buffer (n + 1) st = .ret (r, c)) := by
        intro r p hs
        rw [reads_of_exit le buffer n st r p hlt hs]
        refine ⟨by simp; omega, by simp, by simp; omega, fun _ => ⟨r, p, ?_⟩⟩
        exact loop_of_exit le buffer n st r p hs
      have hmark : b.val < 0xC0 := by
        obtain ⟨step, hs⟩ := iter_returns le buffer st
        cases step with
        | next st' =>
          exact hfree st.ptr (by rw [reads_of_next le buffer n st st' hlt hs]; simp) b hb
        | exit r p =>
          exact hfree st.ptr (by rw [reads_of_exit le buffer n st r p hlt hs]; simp) b hb
      by_cases h0 : b.val = 0
      · exact hexit _ _ (iter_end le buffer st b hb h0)
      · have s1 := iter_label le buffer st b hb h0 hmark
        by_cases hfit : st.ptr + b.val + 1 > buffer.length
        · rw [if_pos hfit] at s1
          exact hexit _ _ s1
        · rw [if_neg hfit] at s1
          have hreads := reads_of_next le buffer n st _ hlt s1
          rw [hreads] at hfree ⊢
          obtain ⟨i1, i2, i3, i4⟩ := ih _ (fun i hi => hfree i (List.mem_cons_of_mem _ hi))
          simp only at i1 i3 i4
          refine ⟨?_, ?_, ?_, fun hf => ?_⟩
          · intro i hi
            rcases List.mem_cons.mp hi with hi | hi
            · omega
            · have := i1 i hi; omega
          · rw [List.chain'_cons']
            refine ⟨fun y hy => ?_, i2⟩
            have := i1 y (List.mem_of_mem_head? hy)
            omega
          · simp only [List.length_cons]; omega
          · rw [loop_of_next le buffer n st _ s1]
            exact i4 (by omega)

/-- When the datagram holds no byte of at least 0xC0 at or after `pos`, a
run started at or after `pos` reads length bytes only at or after `pos`. -/
theorem reads_from (le : Bool) (buffer : List Byte) (pos : Nat)
    (hfree : ∀ i b, pos ≤ i → buffer[i]? = some b → b.val < 0xC0) (fuel : Nat) :
    ∀ (st : NameState), pos ≤ st.ptr →
      ∀ i ∈ length_byte_reads le buffer fuel st, pos ≤ i := by
  induction fuel with
  | zero => intro st _ i hi; simp [reads_zero] at hi
  | succ n ih =>
    intro st hst i hi
    by_cases hp : buffer.length ≤ st.ptr
    · rw [reads_of_out_of_bounds le buffer (n + 1) st hp] at hi
      cases hi
    · have hlt : st.ptr < buffer.length := by omega
      obtain ⟨step, hs⟩ := iter_returns le buffer st
      cases step with
      | exit r p =>
        rw [reads_of_exit le buffer n st r p hlt hs] at hi
        simp at hi
        omega
      | next st' =>
        rw [reads_of_next le buffer n st st' hlt hs] at hi
        rcases List.mem_cons.mp hi with hi | hi
        · omega
        · refine ih st' ?_ i hi
          obtain ⟨b, hb⟩ : ∃ b, buffer[st.ptr]? = some b :=
            ⟨buffer[st.ptr], List.getElem?_eq_getElem hlt⟩
          have hmark := hfree st.ptr b hst hb
          by_cases h0 : b.val = 0
          · rw [iter_end le buffer st b hb h0] at hs
            cases hs
          · have s1 := iter_label le buffer st b hb h0 hmark
            by_cases hfit : st.ptr + b.val + 1 > buffer.length
            · rw [if_pos hfit, hs] at s1
              cases s1
            · rw [if_neg hfit, hs] at s1
              cases s1
              simp only
              omega

/-- C20. Pointer-free termination.  If no byte of at least 0xC0 is read as
a length byte during the decode started at `pos` (which is the case when
the datagram holds no such byte at or after `pos`), `parse_name` returns,
with success or failure, for every budget of at least `len - pos + 1`
iterations; it reads at most `len - pos` length bytes, at positions inside
the datagram that increase strictly from one iteration to the next. -/
theorem pointer_free_termination (le : Bool) (buffer : List Byte) (pos : Nat) :
    ((∀ fuel, ∀ i ∈ length_byte_reads le buffer fuel ⟨pos, none, []⟩,
        ∀ b, buffer[i]? = some b → b.val < 0xC0) →
      (∀ fuel, buffer.length - pos + 1 ≤ fuel →
        ∃ r c, parse_name le fuel buffer pos = .ret (r, c)) ∧
      (∀ fuel, (length_byte_reads le buffer fuel ⟨pos, none, []⟩).length ≤ buffer.length - pos ∧
        List.Chain' (· < ·) (length_byte_reads le buffer fuel ⟨pos, none, []⟩) ∧
        ∀ i ∈ length_byte_reads le buffer fuel ⟨pos, none, []⟩, pos ≤ i ∧ i < buffer.length)) ∧
    ((∀ i b, pos ≤ i → buffer[i]? = some b → b.val < 0xC0) →
      ∀ fuel, ∀ i ∈ length_byte_reads le buffer fuel ⟨pos, none, []⟩,
        ∀ b, buffer[i]? = some b → b.val < 0xC0) := by
  constructor
  · intro hfree
    constructor
    · intro fuel hf
      exact (reads_pointer_free le buffer fuel ⟨pos, none, []⟩ (hfree fuel)).2.2.2
        (by simp only; omega)
    · intro fuel
      obtain ⟨i1, i2, i3, -⟩ := reads_pointer_free le buffer fuel ⟨pos, none, []⟩ (hfree fuel)
      exact ⟨i3, i2, i1⟩
  · intro hfree fuel i hi b hb
    exact hfree i b (reads_from le buffer pos hfree fuel ⟨pos, none, []⟩ (Nat.le_refl _) i hi) hb

theorem pointer_free_termination_witness :
    (∀ i b, 1 ≤ i → ([0xC0, 3, 97, 98, 99, 0] : List Byte)[i]? = some b → b.val < 0xC0) ∧
    (∃ r c, parse_name true 6 [0xC0, 3, 97, 98, 99, 0] 1 = .ret (r, c)) ∧
    (length_byte_reads true [0xC0, 3, 97, 98, 99, 0] 9 ⟨1, none, []⟩).length ≤ 6 - 1 :=
  have hfree : ∀ i b, 1 ≤ i → ([0xC0, 3, 97, 98, 99, 0] : List Byte)[i]? = some b →
      b.val < 0xC0 := by
    intro i b hi hb
    have hall : ∀ x ∈ ([3, 97, 98, 99, 0] : List Byte), x.val < 0xC0 := by
      intro x hx
      fin_cases hx <;> decide
    obtain ⟨k, rfl⟩ : ∃ k, i = k + 1 := ⟨i - 1, by omega⟩
    rw [List.getElem?_cons_succ] at hb
    exact hall b (List.getElem?_mem hb)
  ⟨hfree,
   ((pointer_free_termination true [0xC0, 3, 97, 98, 99, 0] 1).1
      ((pointer_free_termination true [0xC0, 3, 97, 98, 99, 0] 1).2 hfree)).1 6 (by decide),
   (((pointer_free_termination true [0xC0, 3, 97, 98, 99, 0] 1).1
      ((pointer_free_termination true [0xC0, 3, 97, 98, 99, 0] 1).2 hfree)).2 9).1⟩

/-! ## End to end: one question -/

/-- An uncompressed name inside the datagram decodes to its labels, the
cursor ending one byte past the terminating zero. -/
theorem parse_name_encode_name (le : Bool) (ls : List (List Byte)) (pre post : List Byte)
    (hl : ∀ l ∈ ls, 1 ≤ l.length ∧ l.length < 0xC0) (fuel : Nat) (hf : ls.length + 1 ≤ fuel) :
    parse_name le fuel (pre ++ encode_name ls ++ post) pre.length =
      .ret (⟨true, "", labels_from pre.length ls⟩, pre.length + (encode_name ls).length) := by
  have hbuf : pre ++ encode_name ls ++ post = pre ++ encode_labels ls ++ (0 :: post) := by
    simp [encode_name]
  obtain ⟨k, rfl⟩ : ∃ k, fuel = (k + 1) + ls.length := ⟨fuel - ls.length - 1, by omega⟩
  rw [parse_name, hbuf, loop_literals le ls pre (0 :: post) none [] (k + 1) hl]
  have hget : (pre ++ encode_labels ls ++ (0 :: post))[pre.length + (encode_labels ls).length]?
      = some (0 : Byte) := by
    rw [List.getElem?_append_right (by simp)]
    simp
  rw [loop_of_exit le _ k _ _ _ (iter_end le _ _ 0 hget rfl)]
  simp [encode_name]
  omega

theorem be16_append (pre : List Byte) (b0 b1 : Byte) (post : List Byte) :
    be16 (pre ++ b0 :: b1 :: post) pre.length = 256 * b0.val + b1.val := by
  have h0 : (pre ++ b0 :: b1 :: post)[pre.length]? = some b0 := by
    rw [List.getElem?_append_right (Nat.le_refl _)]; simp
  have h1 : (pre ++ b0 :: b1 :: post)[pre.length + 1]? = some b1 := by
    rw [List.getElem?_append_right (by omega)]; simp
  simp [be16, List.getD, h0, h1]

/-- The header decoder on twelve explicit bytes. -/
theorem parse_dns_header_bytes (le : Bool) (b0 b1 b2 b3 b4 b5 b6 b7 b8 b9 b10 b11 : Byte)
    (rest : List Byte) :
    parse_dns_header le (b0 :: b1 :: b2 :: b3 :: b4 :: b5 :: b6 :: b7 :: b8 :: b9 :: b10 ::
        b11 :: rest) =
      .ret ⟨true, "",
        { id := 256 * b0.val + b1.val, flags := 256 * b2.val + b3.val,
          qdcount := 256 * b4.val + b5.val, ancount := 256 * b6.val + b7.val,
          nscount := 256 * b8.val + b9.val, arcount := 256 * b10.val + b11.val }⟩ := by
  have hlen : ¬ ((b0 :: b1 :: b2 :: b3 :: b4 :: b5 :: b6 :: b7 :: b8 :: b9 :: b10 ::
      b11 :: rest).length < sizeof_dns_header_t) := by
    simp [sizeof_dns_header_t]
  obtain ⟨r0, e0, v0⟩ := load_u16_be le (b0 :: b1 :: b2 :: b3 :: b4 :: b5 :: b6 :: b7 :: b8 ::
    b9 :: b10 :: b11 :: rest) 0 (by simp)
  obtain ⟨r1, e1, v1⟩ := load_u16_be le (b0 :: b1 :: b2 :: b3 :: b4 :: b5 :: b6 :: b7 :: b8 ::
    b9 :: b10 :: b11 :: rest) 2 (by simp)
  obtain ⟨r2, e2, v2⟩ := load_u16_be le (b0 :: b1 :: b2 :: b3 :: b4 :: b5 :: b6 :: b7 :: b8 ::
    b9 :: b10 :: b11 :: rest) 4 (by simp)
  obtain ⟨r3, e3, v3⟩ := load_u16_be le (b0 :: b1 :: b2 :: b3 :: b4 :: b5 :: b6 :: b7 :: b8 ::
    b9 :: b10 :: b11 :: rest) 6 (by simp)
  obtain ⟨r4, e4, v4⟩ := load_u16_be le (b0 :: b1 :: b2 :: b3 :: b4 :: b5 :: b6 :: b7 :: b8 ::
    b9 :: b10 :: b11 :: rest) 8 (by simp)
  obtain ⟨r5, e5, v5⟩ := load_u16_be le (b0 :: b1 :: b2 :: b3 :: b4 :: b5 :: b6 :: b7 :: b8 ::
    b9 :: b10 :: b11 :: rest) 10 (by simp)
  simp only [parse_dns_header, hlen, if_false, e0, e1, e2, e3, e4, e5, Outcome.bind_ret,
    v0, v1, v2, v3, v4, v5]
  simp [be16, List.getD]

/-- C12. End to end, single question.  A datagram made of a 12-byte header
with `qdcount = 1` and `ancount = nscount = arcount = 0`, the uncompressed
encoding of a label list `L` (labels of 1 to 63 bytes) and 4 bytes of
big-endian qtype and qclass makes the receive loop print the header line
and exactly one question, with name `L`, that qtype and that qclass, no
resource record and no error, for every budget of at least one iteration
per label plus two. -/
theorem single_question (le : Bool) (id1 id0 fl1 fl0 : Byte) (L : List (List Byte))
    (t1 t0 c1 c0 : Byte) (hL : ∀ l ∈ L, 1 ≤ l.length ∧ l.length ≤ 63)
    (fuel : Nat) (hf : L.length + 2 ≤ fuel) :
    process_datagram le fuel
        ([id1, id0, fl1, fl0, 0, 1, 0, 0, 0, 0, 0, 0] ++ encode_name L ++ [t1, t0, c1, c0]) =
      .ret [.header_line
              { id := 256 * id1.val + id0.val, flags := 256 * fl1.val + fl0.val,
                qdcount := 1, ancount := 0, nscount := 0, arcount := 0 }
              (12 + (encode_name L).length + 4),
            .question_line
              { labels := labels_from 12 L, qtype := 256 * t1.val + t0.val,
                qclass := 256 * c1.val + c0.val } 1] ∧
    (labels_from 12 L).map (label_text
        ([id1, id0, fl1, fl0, 0, 1, 0, 0, 0, 0, 0, 0] ++ encode_name L ++ [t1, t0, c1, c0])) =
      L := by
  have hL' : ∀ l ∈ L, 1 ≤ l.length ∧ l.length < 0xC0 := fun l h => by
    have := hL l h; omega
  have hname := parse_name_encode_name le L [id1, id0, fl1, fl0, 0, 1, 0, 0, 0, 0, 0, 0]
    [t1, t0, c1, c0] hL' fuel (by omega)
  have hlen12 : ([id1, id0, fl1, fl0, 0, 1, 0, 0, 0, 0, 0, 0] : List Byte).length = 12 := rfl
  rw [hlen12] at hname
  have hpre : ([id1, id0, fl1, fl0, 0, 1, 0, 0, 0, 0, 0, 0] ++ encode_name L).length =
      12 + (encode_name L).length := by simp; omega
  have hq1 : be16 ([id1, id0, fl1, fl0, 0, 1, 0, 0, 0, 0, 0, 0] ++ encode_name L ++
      [t1, t0, c1, c0]) (12 + (encode_name L).length) = 256 * t1.val + t0.val := by
    rw [← hpre]; exact be16_append _ t1 t0 [c1, c0]
  have hq2 : be16 ([id1, id0, fl1, fl0, 0, 1, 0, 0, 0, 0, 0, 0] ++ encode_name L ++
      [t1, t0, c1, c0]) (12 + (encode_name L).length + 2) = 256 * c1.val + c0.val := by
    have e : [id1, id0, fl1, fl0, 0, 1, 0, 0, 0, 0, 0, 0] ++ encode_name L ++ [t1, t0, c1, c0] =
        ([id1, id0, fl1, fl0, 0, 1, 0, 0, 0, 0, 0, 0] ++ encode_name L ++ [t1, t0]) ++
          c1 :: c0 :: [] := by simp
    have e2 : ([id1, id0, fl1, fl0, 0, 1, 0, 0, 0, 0, 0, 0] ++ encode_name L ++ [t1, t0]).length
        = 12 + (encode_name L).length + 2 := by simp; omega
    rw [e, ← e2]; exact be16_append _ c1 c0 []
  have hblen : ([id1, id0, fl1, fl0, 0, 1, 0, 0, 0, 0, 0, 0] ++ encode_name L ++
      [t1, t0, c1, c0]).length = 12 + (encode_name L).length + 4 := by simp; omega
  have hquestion := parse_question_eq le fuel _ 12 _ _ hname
  rw [hq1, hq2, hblen] at hquestion
  simp only [Bool.true_eq_false, if_false, gt_iff_lt, Nat.lt_irrefl] at hquestion
  have hh : parse_dns_header le
      ([id1, id0, fl1, fl0, 0, 1, 0, 0, 0, 0, 0, 0] ++ encode_name L ++ [t1, t0, c1, c0]) =
      .ret ⟨true, "",
        { id := 256 * id1.val + id0.val, flags := 256 * fl1.val + fl0.val,
          qdcount := 1, ancount := 0, nscount := 0, arcount := 0 }⟩ := by
    have := parse_dns_header_bytes le id1 id0 fl1 fl0 0 1 0 0 0 0 0 0
      (encode_name L ++ [t1, t0, c1, c0])
    simpa using this
  have hdq : decode_questions le fuel
      ([id1, id0, fl1, fl0, 0, 1, 0, 0, 0, 0, 0, 0] ++ encode_name L ++ [t1, t0, c1, c0]) 1 12 =
      some ([{ labels := labels_from 12 L, qtype := 256 * t1.val + t0.val,
               qclass := 256 * c1.val + c0.val }], 12 + (encode_name L).length + 4) := by
    rw [decode_questions, hquestion]
    simp [decode_questions]
  have e1 := question_loop_complete le fuel fuel _ 1 (Nat.le_refl _) (by decide) 1 1 fuel
    { ptr := sizeof_dns_header_t, parse_failed := false, error_msg := "",
      out := [.header_line
        { id := 256 * id1.val + id0.val, flags := 256 * fl1.val + fl0.val,
          qdcount := 1, ancount := 0, nscount := 0, arcount := 0 }
        (12 + (encode_name L).length + 4)] } _ _ rfl (by omega) rfl hdq
  have e2 : ∀ (B : List Byte) (type : RecordType) (s : MainState), s.parse_failed = false →
      resource_loop le fuel B 0 type fuel 1 s = .ret s := by
    intro B type s hs
    have := resource_loop_complete le fuel fuel B 0 type (Nat.le_refl _) (by decide) 0 1 fuel
      s [] s.ptr rfl (by omega) hs rfl
    simpa [resource_lines] using this
  refine ⟨?_, ?_⟩
  · simp only [process_datagram, hh, Outcome.bind_ret, Bool.not_true, Bool.false_eq_true,
      if_false, hblen, Fin.val_zero, Nat.mul_zero, Nat.zero_add, e1]
    simp [e2, question_lines]
  · have := label_text_labels_from L [id1, id0, fl1, fl0, 0, 1, 0, 0, 0, 0, 0, 0]
      (0 :: [t1, t0, c1, c0]) (fun l h => by have := hL l h; omega)
    rw [hlen12] at this
    simpa [encode_name] using this

theorem single_question_witness :
    (∀ l ∈ ([[119, 119, 119], [101, 120, 97, 109, 112, 108, 101], [99, 111, 109]] :
        List (List Byte)), 1 ≤ l.length ∧ l.length ≤ 63) ∧
    process_datagram true 5 sample_query =
      .ret [.header_line ⟨0x1234, 0, 1, 0, 0, 0⟩ 33,
            .question_line ⟨[⟨13, 3⟩, ⟨17, 7⟩, ⟨25, 3⟩], 1, 1⟩ 1] :=
  ⟨by decide,
   (single_question true 0x12 0x34 0 0
      [[119, 119, 119], [101, 120, 97, 109, 112, 108, 101], [99, 111, 109]] 0 1 0 1
      (by decide) 5 (by decide)).1⟩

/-! ## Abort on the first failure -/

theorem Outcome.bind_assoc {α β γ : Type} (x : Outcome α) (f : α → Outcome β)
    (g : β → Outcome γ) : (x.bind f).bind g = x.bind fun a => (f a).bind g := by
  cases x <;> rfl

theorem run_entries_failed (le : Bool) (fuel : Nat) (buffer : List Byte) (es : List Entry)
    (s : MainState) (h : s.parse_failed = true) : run_entries le fuel buffer es s = .ret s := by
  cases es with
  | nil => rfl
  | cons e es => simp [run_entries, h]

theorem run_entries_append (le : Bool) (fuel : Nat) (buffer : List Byte) (xs ys : List Entry) :
    ∀ s, run_entries le fuel buffer (xs ++ ys) s =
      (run_entries le fuel buffer xs s).bind (run_entries le fuel buffer ys) := by
  induction xs with
  | nil => intro s; rfl
  | cons e xs ih =>
    intro s
    by_cases hpf : s.parse_failed = true
    · rw [run_entries_failed le fuel buffer _ s hpf, run_entries_failed le fuel buffer _ s hpf,
        Outcome.bind_ret, run_entries_failed le fuel buffer _ s hpf]
    · simp only [List.cons_append, run_entries, hpf, if_false, Bool.false_eq_true]
      cases hd : decode_entry le fuel buffer e s.ptr with
      | ret x =>
        obtain ⟨r, p⟩ := x
        simp only [Outcome.bind_ret]
        by_cases hs : r.success = true
        · simp only [hs, Bool.not_true, Bool.false_eq_true, if_false]
          exact ih _
        · simp only [hs, Bool.not_false, if_true, Outcome.bind_ret]
          rw [run_entries_failed le fuel buffer ys _ rfl]
      | oob => rfl
      | nofuel => rfl

/-- In a receive buffer of at most 1500 bytes the question loop entered with
counter `i` and `n = qdcount + 1 - i` entries left is the sequential decode
of the questions numbered `i .. qdcount`: the counter cannot reach 2^16,
since every question decoded so far took at least five bytes. -/
theorem question_loop_eq_run (le : Bool) (fuel : Nat) (buffer : List Byte) (qd : Nat)
    (hlen : buffer.length ≤ 1500) (n : Nat) :
    ∀ (i budget : Nat) (s : MainState),
      i + n = qd + 1 → n < budget → 5 * i ≤ s.ptr + 5 →
      question_loop le fuel buffer qd budget i s =
        run_entries le fuel buffer ((List.range' i n).map .question) s := by
  induction n with
  | zero =>
    intro i budget s hi hb _
    obtain ⟨b, rfl⟩ : ∃ b, budget = b + 1 := ⟨budget - 1, by omega⟩
    have : ¬ i ≤ qd := by omega
    simp [question_loop, this, run_entries]
  | succ n ih =>
    intro i budget s hi hb hinv
    obtain ⟨b, rfl⟩ : ∃ b, budget = b + 1 := ⟨budget - 1, by omega⟩
    have hi' : i ≤ qd := by omega
    rw [List.range'_succ, List.map_cons]
    by_cases hpf : s.parse_failed = true
    · rw [run_entries_failed le fuel buffer _ s hpf]
      simp [question_loop, hpf]
    · rw [question_loop, run_entries]
      simp only [hi', hpf, decide_True, Bool.not_false, Bool.and_self, if_true, if_false,
        Bool.false_eq_true, decode_entry]
      cases hq : parse_question le fuel buffer s.ptr with
      | ret x =>
        obtain ⟨r, p⟩ := x
        simp only [Outcome.bind_ret]
        by_cases hs : r.success = true
        · have hbnd := parse_question_bounds le fuel buffer s.ptr p r hq hs
          have hwrap : (i + 1) % 65536 = i + 1 := Nat.mod_eq_of_lt (by omega)
          simp only [hs, Bool.not_true, Bool.false_eq_true, if_false, if_true, hwrap]
          exact ih (i + 1) b _ (by omega) (by omega) (by simp only; omega)
        · simp only [hs, Bool.not_false, if_true]
      | oob => rfl
      | nofuel => rfl

/-- In a receive buffer of at most 1500 bytes the resource record loop of a
section entered with counter `i` and `n = count + 1 - i` entries left is the
sequential decode of the records numbered `i .. count` of that section. -/
theorem resource_loop_eq_run (le : Bool) (fuel : Nat) (buffer : List Byte) (count : Nat)
    (type : RecordType) (hlen : buffer.length ≤ 1500) (n : Nat) :
    ∀ (i budget : Nat) (s : MainState),
      i + n = count + 1 → n < budget → 5 * i ≤ s.ptr + 5 →
      resource_loop le fuel buffer count type budget i s =
        run_entries le fuel buffer ((List.range' i n).map (.resource type)) s := by
  induction n with
  | zero =>
    intro i budget s hi hb _
    obtain ⟨b, rfl⟩ : ∃ b, budget = b + 1 := ⟨budget - 1, by omega⟩
    have : ¬ i ≤ count := by omega
    simp [resource_loop, this, run_entries]
  | succ n ih =>
    intro i budget s hi hb hinv
    obtain ⟨b, rfl⟩ : ∃ b, budget = b + 1 := ⟨budget - 1, by omega⟩
    have hi' : i ≤ count := by omega
    rw [List.range'_succ, List.map_cons]
    by_cases hpf : s.parse_failed = true
    · rw [run_entries_failed le fuel buffer _ s hpf]
      simp [resource_loop, hpf]
    · rw [resource_loop, run_entries]
      simp only [hi', hpf, decide_True, Bool.not_false, Bool.and_self, if_true, if_false,
        Bool.false_eq_true, decode_entry]
      cases hq : parse_resource le fuel buffer s.ptr with
      | ret x =>
        obtain ⟨r, p⟩ := x
        simp only [Outcome.bind_ret]
        by_cases hs : r.success = true
        · have hbnd := parse_resource_bounds le fuel buffer s.ptr p r hq hs
          have hwrap : (i + 1) % 65536 = i + 1 := Nat.mod_eq_of_lt (by omega)
          simp only [hs, Bool.not_true, Bool.false_eq_true, if_false, if_true, hwrap]
          exact ih (i + 1) b _ (by omega) (by omega) (by simp only; omega)
        · simp only [hs, Bool.not_false, if_true]
      | oob => rfl
      | nofuel => rfl

/-- For a datagram of at most 1500 bytes whose header decodes, the body of
the receive loop is the sequential decode of the declared entries, followed
by the error report when one of them failed. -/
theorem process_datagram_eq_run (le : Bool) (fuel : Nat) (buffer : List Byte) (h : dns_header_t)
    (hlen : buffer.length ≤ 1500)
    (hh : parse_dns_header le buffer = .ret ⟨true, "", h⟩)
    (hb : h.qdcount + h.ancount + h.nscount + h.arcount < fuel) :
    process_datagram le fuel buffer =
      (run_entries le fuel buffer (declared_entries h)
        { ptr := 12, parse_failed := false, error_msg := "",
          out := [.header_line h buffer.length] }).bind fun s =>
        if s.parse_failed then
          .ret (s.out ++ [.error_line s.error_msg, .buffer_dump buffer])
        else
          .ret s.out := by
  have eq : ∀ s, question_loop le fuel buffer h.qdcount fuel 1 s =
      run_entries le fuel buffer ((List.range' 1 h.qdcount).map .question) s := fun s =>
    question_loop_eq_run le fuel buffer h.qdcount hlen h.qdcount 1 fuel s (by omega) (by omega)
      (by omega)
  have ea : ∀ s, resource_loop le fuel buffer h.ancount .AN fuel 1 s =
      run_entries le fuel buffer ((List.range' 1 h.ancount).map (.resource .AN)) s := fun s =>
    resource_loop_eq_run le fuel buffer h.ancount .AN hlen h.ancount 1 fuel s (by omega)
      (by omega) (by omega)
  have en : ∀ s, resource_loop le fuel buffer h.nscount .NS fuel 1 s =
      run_entries le fuel buffer ((List.range' 1 h.nscount).map (.resource .NS)) s := fun s =>
    resource_loop_eq_run le fuel buffer h.nscount .NS hlen h.nscount 1 fuel s (by omega)
      (by omega) (by omega)
  have er : ∀ s, resource_loop le fuel buffer h.arcount .AR fuel 1 s =
      run_entries le fuel buffer ((List.range' 1 h.arcount).map (.resource .AR)) s := fun s =>
    resource_loop_eq_run le fuel buffer h.arcount .AR hlen h.arcount 1 fuel s (by omega)
      (by omega) (by omega)
  simp only [process_datagram, hh, Outcome.bind_ret, Bool.not_true, Bool.false_eq_true, if_false,
    eq, ea, en, er, declared_entries, run_entries_append, Outcome.bind_assoc, sizeof_dns_header_t]

theorem decode_entry_mono (le : Bool) (fuel fuel' : Nat) (buffer : List Byte) (e : Entry)
    (ptr : Nat) (x : ParseResult (List Event) × Nat)
    (h : decode_entry le fuel buffer e ptr = .ret x) (hle : fuel ≤ fuel') :
    decode_entry le fuel' buffer e ptr = .ret x := by
  cases e with
  | question num =>
    simp only [decode_entry] at h ⊢
    cases hq : parse_question le fuel buffer ptr with
    | ret y =>
      rw [parse_question_mono le fuel fuel' buffer ptr y hq hle]
      rw [hq] at h
      exact h
    | oob => rw [hq] at h; cases h
    | nofuel => rw [hq] at h; cases h
  | resource type num =>
    simp only [decode_entry] at h ⊢
    cases hq : parse_resource le fuel buffer ptr with
    | ret y =>
      rw [parse_resource_mono le fuel fuel' buffer ptr y hq hle]
      rw [hq] at h
      exact h
    | oob => rw [hq] at h; cases h
    | nofuel => rw [hq] at h; cases h

/-- Entries that all decode are passed over by the sequential decode, which
collects their lines and continues at the cursor where the last one ended. -/
theorem run_entries_decoded (le : Bool) (fuel fuel' : Nat) (buffer : List Byte)
    (hle : fuel ≤ fuel') (before : List Entry) :
    ∀ (rest : List Entry) (s : MainState) (evs : List Event) (p : Nat),
      s.parse_failed = false →
      decode_entries le fuel buffer before s.ptr = some (evs, p) →
      run_entries le fuel' buffer (before ++ rest) s =
        run_entries le fuel' buffer rest { s with ptr := p, out := s.out ++ evs } := by
  induction before with
  | nil =>
    intro rest s evs p _ hd
    simp only [decode_entries, Option.some.injEq, Prod.mk.injEq] at hd
    obtain ⟨h1, h2⟩ := hd
    subst h1 h2
    simp
  | cons e es ih =>
    intro rest s evs p hpf hd
    rw [decode_entries] at hd
    cases he : decode_entry le fuel buffer e s.ptr with
    | ret x =>
      obtain ⟨r, q⟩ := x
      rw [he] at hd
      simp only at hd
      by_cases hs : r.success = true
      · rw [if_pos hs] at hd
        cases hes : decode_entries le fuel buffer es q with
        | none => rw [hes] at hd; simp at hd
        | some y =>
          obtain ⟨evs', p'⟩ := y
          rw [hes] at hd
          simp only [Option.map_some', Option.some.injEq, Prod.mk.injEq] at hd
          obtain ⟨h1, h2⟩ := hd
          subst h1 h2
          have he' := decode_entry_mono le fuel fuel' buffer e s.ptr _ he hle
          rw [List.cons_append, run_entries]
          simp only [hpf, Bool.false_eq_true, if_false, he', Outcome.bind_ret, hs, Bool.not_true]
          have hih := ih rest ⟨q, false, s.error_msg, s.out ++ r.data⟩ evs' p' rfl hes
          rw [hih]
          simp [List.append_assoc]
      · rw [if_neg hs] at hd; cases hd
    | oob => rw [he] at hd; cases hd
    | nofuel => rw [he] at hd; cases hd

/-- C11. Abort on first failure.  For every datagram `main` can receive (at
most the 1500 bytes of its receive buffer) whose header decodes: if, among
the entries the header declares, the entries `before` all decode in
sequence from offset 12 and the next entry `e` fails to decode at the
cursor where they ended, then the body of the receive loop prints the
header line, exactly the lines of the entries `before`, then the error of
`e` and the hex dump; nothing of the entries `after`, of the same or of a
later section, is printed, and the error reported is that of `e`. -/
theorem abort_on_first_failure (le : Bool) (fuel fuel' : Nat) (buffer : List Byte)
    (h : dns_header_t) (before after : List Entry) (e : Entry) (evs : List Event) (p p' : Nat)
    (r : ParseResult (List Event))
    (hlen : buffer.length ≤ BUFFER_SIZE)
    (hh : parse_dns_header le buffer = .ret ⟨true, "", h⟩)
    (hsplit : declared_entries h = before ++ e :: after)
    (hbefore : decode_entries le fuel buffer before 12 = some (evs, p))
    (hfail : decode_entry le fuel buffer e p = .ret (r, p'))
    (hr : r.success = false)
    (hf : fuel ≤ fuel')
    (hb : h.qdcount + h.ancount + h.nscount + h.arcount < fuel') :
    process_datagram le fuel' buffer =
      .ret (.header_line h buffer.length :: evs ++
        [.error_line r.error, .buffer_dump buffer]) := by
  rw [process_datagram_eq_run le fuel' buffer h hlen hh hb, hsplit,
    run_entries_decoded le fuel fuel' buffer hf before (e :: after)
      ⟨12, false, "", [.header_line h buffer.length]⟩ evs p rfl hbefore,
    run_entries]
  have hfail' := decode_entry_mono le fuel fuel' buffer e p _ hfail hf
  simp [hfail', hr]

theorem abort_on_first_failure_witness :
    sample_truncated.length ≤ BUFFER_SIZE ∧
    parse_dns_header true sample_truncated = .ret ⟨true, "", ⟨0x1234, 0x8400, 1, 1, 0, 0⟩⟩ ∧
    declared_entries ⟨0x1234, 0x8400, 1, 1, 0, 0⟩ =
      [.question 1] ++ .resource .AN 1 :: [] ∧
    decode_entries true 4 sample_truncated [.question 1] 12 =
      some ([.question_line ⟨[⟨13, 3⟩], 1, 1⟩ 1], 21) ∧
    decode_entry true 4 sample_truncated (.resource .AN 1) 21 =
      .ret (⟨false, "Invalid rdata length", []⟩, 35) ∧
    process_datagram true 4 sample_truncated =
      .ret [.header_line ⟨0x1234, 0x8400, 1, 1, 0, 0⟩ 36,
            .question_line ⟨[⟨13, 3⟩], 1, 1⟩ 1,
            .error_line "Invalid rdata length",
            .buffer_dump sample_truncated] :=
  ⟨by decide, by decide, by decide, by decide, by decide,
   abort_on_first_failure true 4 4 sample_truncated ⟨0x1234, 0x8400, 1, 1, 0, 0⟩
     [.question 1] [] (.resource .AN 1) [.question_line ⟨[⟨13, 3⟩], 1, 1⟩ 1] 21 35
     ⟨false, "Invalid rdata length", []⟩
     (by decide) (by decide) (by decide) (by decide) (by decide) rfl (by decide) (by decide)⟩

end MdnsLogger
